import Mathlib

/-!
Verification of the git-cache caching and resolution engine
(`src/git_cache/main.py`) against its specification.

The Python source is shallowly embedded:
* external `git` subprocess calls are modelled by an oracle record whose
  fields give the outcome of each kind of invocation (success/failure and
  captured, stripped stdout), matching the collaborator contract of spec §6;
* the filesystem used by the symlink manager and the view materializer is
  modelled as a finite association list from absolute paths (component
  lists) to nodes (regular file, directory, or symlink storing its target);
* Python string operations (`str.strip`, `str.split`, `str.splitlines`,
  slicing) are re-implemented faithfully below;
* `hashlib.sha256(...).hexdigest()` is an external cryptographic digest
  (spec §4.1 assumes collision freedom); it is modelled by an injective
  function on strings.
-/

namespace GitCache

/-- Python `str` whitespace class used by `str.strip()` / `str.split()`
(ASCII part; the inputs handled by the program are ASCII git output). -/
def pyWs (c : Char) : Bool :=
  c == ' ' || c == '\t' || c == '\n' || c == '\r' || c == '\x0b' || c == '\x0c'

/-- Python `str.strip()` with no argument: remove leading and trailing
whitespace. -/
def pyStrip (s : String) : String :=
  String.mk (((s.toList.dropWhile pyWs).reverse.dropWhile pyWs).reverse)

/-- Split a character list at every separator character, keeping empty
segments (the splitting core of `str.split(sep)`). -/
def splitChars (sep : Char → Bool) : List Char → List (List Char)
  | [] => [[]]
  | c :: rest =>
    if sep c then [] :: splitChars sep rest
    else
      match splitChars sep rest with
      | seg :: segs => (c :: seg) :: segs
      | [] => [[c]]

/-- Python `str.split()` with no argument: split on whitespace runs and
drop empty fields. -/
def pySplit (s : String) : List String :=
  ((splitChars pyWs s.toList).map String.mk).filter (fun w => w != "")

/-- Rewrite the line boundaries `\r\n` and `\r` to `\n`. -/
def normalizeNewlines : List Char → List Char
  | [] => []
  | '\r' :: '\n' :: rest => '\n' :: normalizeNewlines rest
  | '\r' :: rest => '\n' :: normalizeNewlines rest
  | c :: rest => c :: normalizeNewlines rest

/-- Python `str.splitlines()` restricted to the line boundaries `\n`,
`\r` and `\r\n` (the ones git output can contain): split into lines,
without a trailing empty line for a terminal newline. -/
def pysplitlines (s : String) : List String :=
  if s = "" then []
  else
    let parts := (splitChars (fun c => c == '\n') (normalizeNewlines s.toList)).map String.mk
    if parts.getLast? = some "" then parts.dropLast else parts

/-- `hashlib.sha256(s.encode()).hexdigest()` from `hash_str` in the source,
modelled as an injective function on strings (the digest is an external
cryptographic primitive; spec §4.1 assumes collision freedom, so the cache
keys behave exactly like the digested strings themselves). -/
def hash_str (s : String) : String := s

/-!
## `is_known_branch` (main.py lines 82-88)

```python
def is_known_branch(metadata_repo: Path, ref: str) -> bool:
    try:
        branches = run_git(["branch", "-a"], cwd=metadata_repo, capture_output=True).splitlines()
        return any(line.strip()[len("remotes/origin/"):] == ref for line in branches)
    except subprocess.CalledProcessError:
        pass
    return False
```

`run_git` with `capture_output=True` returns `result.stdout.strip()`.
The subprocess is modelled by its outcome: `none` when `git branch -a`
fails (`CalledProcessError`), `some out` with the raw stdout otherwise.
-/

/-- Embedding of `is_known_branch`: `branchOut` is the outcome of the
`git branch -a` subprocess (`none` = subprocess failure). -/
def is_known_branch (branchOut : Option String) (ref : String) : Bool :=
  match branchOut with
  | none => false
  | some out =>
      (pysplitlines (pyStrip out)).any
        (fun line => (pyStrip line).drop ("remotes/origin/".length) == ref)

/-!
## Git subprocess oracle and `get_commit` (main.py lines 90-119)

A metadata repository's git subprocess behaviour is modelled by an oracle
giving the outcome of each command the resolver issues:
* `catOk x` — whether `git cat-file -e x^{commit}` succeeds,
* `revParse x` — the stripped stdout of `git rev-parse x`, `none` on failure,
* `fetchOk x` — whether `git fetch origin x` succeeds,
* `branchOut` — the stdout of `git branch -a`, `none` on failure.
The oracle is static: the external repository does not change during one
resolution (the program's subprocess calls are modelled as deterministic).
Every subprocess interaction is recorded as an event so that theorems can
speak about which fetches a call performs.
-/

structure GitOracle where
  catOk : String → Bool
  revParse : String → Option String
  fetchOk : String → Bool
  branchOut : Option String

/-- One recorded interaction with the external git tool or the cache.
`freshFetch` is the branch-freshness `git fetch origin ref` issued by
`fetch_if_update_and_branch`; `fallbackFetch` is the direct fetch in
`get_commit`'s exception handler. `enter`, `cloneMetadata`,
`cloneCheckout` and `link` are produced by `checkout` below. -/
inductive GEvent where
  | verify (x : String)
  | revParse (x : String)
  | listBranches
  | freshFetch (x : String)
  | fallbackFetch (x : String)
  | enter (url ref : String) (fetch : Bool)
  | cloneMetadata (url : String)
  | cloneCheckout (url commit : String)
  | link (checkoutKey subPath resolvedPath : String)
  deriving DecidableEq, Repr

/-- The events that contact the network: cloning a metadata repository and
the two kinds of `git fetch origin`. (`cloneCheckout` clones from the local
metadata entry, spec §4.5 step 5, and `verify` / `revParse` /
`listBranches` are local queries.) -/
def GEvent.isNetworkFetch : GEvent → Bool
  | .freshFetch _ => true
  | .fallbackFetch _ => true
  | .cloneMetadata _ => true
  | _ => false

/-- Whether the event is any `git fetch origin` of the metadata repo. -/
def GEvent.isFetch : GEvent → Bool
  | .freshFetch _ => true
  | .fallbackFetch _ => true
  | _ => false

/-- Embedding of `get_commit(metadata_repo, ref, fetch)`: returns the
resolved commit string, or the `RuntimeError` message when the try block
raised `CalledProcessError` and the fallback `git fetch origin ref` also
failed; paired with the list of subprocess events in order.

Source structure mirrored exactly: the 40-character fast path runs
`cat-file -e ref^{commit}` and returns `ref` on success; its bare
`except:` falls into the slow path (`fetch_if_update_and_branch`, then
`rev-parse`, then `cat-file` on the rev-parse output); refs of any other
length run `fetch_if_update_and_branch` and `rev-parse` with no further
verification. Any `CalledProcessError` escaping that try block (including
a failing freshness fetch) triggers the single fallback
`git fetch origin ref`, whose success makes `ref` itself the result. -/
def fetch_if_update_and_branch (g : GitOracle) (ref : String) (fetch : Bool) :
    List GEvent × Option Unit :=
  -- events it records, and `none` when the freshness fetch raises
  -- CalledProcessError (the short-circuiting `and` runs `git branch -a`
  -- only when `fetch` is set)
  if fetch then
    if is_known_branch g.branchOut ref then
      ([.listBranches, .freshFetch ref], if g.fetchOk ref then some () else none)
    else ([.listBranches], some ())
  else ([], some ())

/-- The try block of `get_commit` (main.py lines 96-109): `none` means a
`CalledProcessError` escaped to the handler. -/
def get_commit_try (g : GitOracle) (ref : String) (fetch : Bool) :
    Option String × List GEvent :=
  if ref.length == 40 then
    if g.catOk ref then (some ref, [.verify ref])
    else
      match fetch_if_update_and_branch g ref fetch with
      | (evs, none) => (none, .verify ref :: evs)
      | (evs, some _) =>
        match g.revParse ref with
        | none => (none, .verify ref :: evs ++ [.revParse ref])
        | some c =>
          if g.catOk c then (some c, .verify ref :: evs ++ [.revParse ref, .verify c])
          else (none, .verify ref :: evs ++ [.revParse ref, .verify c])
  else
    match fetch_if_update_and_branch g ref fetch with
    | (evs, none) => (none, evs)
    | (evs, some _) =>
      match g.revParse ref with
      | none => (none, evs ++ [.revParse ref])
      | some c => (some c, evs ++ [.revParse ref])

def get_commit (g : GitOracle) (ref : String) (fetch : Bool) :
    Except String String × List GEvent :=
  match get_commit_try g ref fetch with
  | (some c, evs) => (.ok c, evs)
  | (none, evs) =>
    if g.fetchOk ref then (.ok ref, evs ++ [.fallbackFetch ref])
    else
      (.error ("Ref '" ++ ref ++ "' could not be resolved or fetched directly."),
       evs ++ [.fallbackFetch ref])

/-- The `RuntimeError` message raised when both local resolution and the
fallback fetch fail (main.py line 117). It names the offending ref; no
URL is available inside `get_commit` (the function receives only the
metadata repository path). -/
def unresolved_msg (ref : String) : String :=
  "Ref '" ++ ref ++ "' could not be resolved or fetched directly."

/-- Declarative characterization of "the try block of `get_commit` raises
`CalledProcessError`": for a 40-character ref the direct `cat-file` check
fails and then the slow path fails (freshness fetch raises, or `rev-parse`
fails, or the rev-parsed output fails `cat-file`); for any other ref the
freshness fetch raises or `rev-parse` fails — note: no `cat-file`
verification of the rev-parse output happens on that branch. -/
def local_resolution_fails (g : GitOracle) (ref : String) (fetch : Bool) : Bool :=
  let freshness_raises := fetch && is_known_branch g.branchOut ref && !g.fetchOk ref
  if ref.length = 40 then
    !g.catOk ref &&
      (freshness_raises ||
        match g.revParse ref with
        | none => true
        | some c => !g.catOk c)
  else
    freshness_raises || (g.revParse ref).isNone

/-- Whether an event is the fallback direct fetch of `get_commit`'s
exception handler. -/
def GEvent.isFallbackFetch : GEvent → Bool
  | .fallbackFetch _ => true
  | _ => false

/-- A concrete metadata-repository state: `git rev-parse somebranch`
prints `badc0ffee`, but `badc0ffee` fails `cat-file` commit verification
and every `git fetch origin` fails. -/
def gOracleRevParseOnly : GitOracle :=
  { catOk := fun _ => false
    revParse := fun s => if s = "somebranch" then some "badc0ffee" else none
    fetchOk := fun _ => false
    branchOut := some "" }

/-!
## Relative submodule URL resolution (main.py lines 136-148)

```python
def resolve_relative_submodule_url(parent_url: str, relative: str) -> str:
    ssh_match = re.match(r"(?P<user>[^@]+)@(?P<host>[^:]+):(?P<path>.+)", parent_url)
    if ssh_match:
        parent_url = f"ssh://{user}@{host}/{path}"
    parsed = urllib.parse.urlparse(parent_url)
    base_path = Path(parsed.path).parent
    resolved_path = os.path.normpath(base_path / relative)
    resolved_url = f"{parsed.scheme}://{parsed.netloc}{resolved_path}"
    return resolved_url
```

The Python library functions it leans on — `re.match` with that one
pattern, `urllib.parse.urlparse` (scheme/netloc/path extraction),
`PurePosixPath.parent`, `PurePosixPath./` and `os.path.normpath` — are
re-implemented below with their CPython semantics.
-/

/-- `re.match(r"([^@]+)@([^:]+):(.+)", s)`: anchored at the start;
`user` is the (nonempty) text before the first `@`, `host` the (nonempty)
text between that `@` and the first following `:`, `path` the rest of the
first line (nonempty; `.` does not match a newline). Greedy negated
classes cannot backtrack past their excluded character, so these
first-occurrence splits are exact. -/
def sshMatch (s : String) : Option (String × String × String) :=
  let cs := s.toList
  let user := cs.takeWhile (fun c => c != '@')
  match cs.dropWhile (fun c => c != '@') with
  | '@' :: afterAt =>
    if user.isEmpty then none
    else
      let host := afterAt.takeWhile (fun c => c != ':')
      match afterAt.dropWhile (fun c => c != ':') with
      | ':' :: afterColon =>
        if host.isEmpty then none
        else
          let path := afterColon.takeWhile (fun c => c != '\n')
          if path.isEmpty then none
          else some (String.mk user, String.mk host, String.mk path)
      | _ => none
  | _ => none

/-- The SSH-shorthand normalization at the top of
`resolve_relative_submodule_url`: `git@host:path` becomes
`ssh://git@host/path`; anything the pattern does not match is returned
unchanged. -/
def ssh_shorthand_normalize (parent_url : String) : String :=
  match sshMatch parent_url with
  | some (user, host, path) => "ssh://" ++ user ++ "@" ++ host ++ "/" ++ path
  | none => parent_url

/-- The characters CPython's `urllib.parse` accepts inside a URL scheme. -/
def schemeChar (c : Char) : Bool :=
  c.isAlpha || c.isDigit || c == '+' || c == '-' || c == '.'

structure UrlParts where
  scheme : String
  netloc : String
  path : String
  deriving DecidableEq, Repr

/-- `urllib.parse.urlparse`, restricted to the components the program
reads (scheme, netloc, path). CPython: the scheme is the lowercased text
before the first `:` when that text is nonempty, starts with an ASCII
letter and consists of scheme characters; a netloc follows a leading
`//` and runs to the first `/`, `?` or `#`; the path is what remains
before any fragment (`#`) and query (`?`). -/
def pyUrlparse (url : String) : UrlParts :=
  let cs := url.toList
  let pre := cs.takeWhile (fun c => c != ':')
  let hasScheme :=
    pre.length < cs.length && !pre.isEmpty && pre.all schemeChar &&
      (pre.headD ' ').isAlpha
  let scheme := if hasScheme then String.mk (pre.map Char.toLower) else ""
  let rest := if hasScheme then cs.drop (pre.length + 1) else cs
  let hasNetloc :=
    match rest with
    | '/' :: '/' :: _ => true
    | _ => false
  let afterSlashes := if hasNetloc then rest.drop 2 else rest
  let netloc :=
    if hasNetloc then
      String.mk (afterSlashes.takeWhile (fun c => c != '/' && c != '?' && c != '#'))
    else ""
  let rest2 :=
    if hasNetloc then
      afterSlashes.dropWhile (fun c => c != '/' && c != '?' && c != '#')
    else rest
  let path := (rest2.takeWhile (fun c => c != '#')).takeWhile (fun c => c != '?')
  { scheme := scheme, netloc := netloc, path := String.mk path }

/-- The root of a POSIX path as `PurePosixPath` and `os.path.normpath`
compute it: exactly two leading slashes are kept as `//` (POSIX
implementation-defined root), any other number collapses to `/`. -/
def posixRoot (cs : List Char) : String :=
  match cs with
  | '/' :: '/' :: c :: _ => if c = '/' then "/" else "//"
  | ['/', '/'] => "//"
  | '/' :: _ => "/"
  | _ => ""

/-- Python `str.startswith(pre)`. -/
def pyStartsWith (s pre : String) : Bool :=
  pre.toList.isPrefixOf s.toList

/-- The components of a POSIX path with empty and `.` segments dropped,
as `PurePosixPath.parts` (minus the root) and `normpath` both do. -/
def posixComps (s : String) : List String :=
  ((splitChars (fun c => c == '/') s.toList).map String.mk).filter
    (fun p => p != "" && p != ".")

/-- Render a root and component list back to a string the way
`PurePosixPath.__str__` does. -/
def purePosixStr (root : String) (parts : List String) : String :=
  if parts.isEmpty then (if root = "" then "." else root)
  else root ++ String.intercalate "/" parts

/-- `PurePosixPath(s).parent`: drop the last component; without
components the path is its own parent. -/
def posixParent (s : String) : String :=
  let root := posixRoot s.toList
  let parts := posixComps s
  if parts.isEmpty then purePosixStr root []
  else purePosixStr root parts.dropLast

/-- `os.path.normpath` for POSIX paths (CPython `posixpath.normpath`):
drop empty and `.` components, resolve `..` against a preceding
component, keep leading `..`s of a relative path, drop `..` at an
absolute root, and preserve a double-slash root. -/
def pyNormpath (p : String) : String :=
  if p = "" then "."
  else
    let cs := p.toList
    let initialSlashes : Nat :=
      match cs with
      | '/' :: '/' :: c :: _ => if c = '/' then 1 else 2
      | ['/', '/'] => 2
      | '/' :: _ => 1
      | _ => 0
    let newComps := (posixComps p).foldl
      (fun acc comp =>
        if comp ≠ ".." then acc ++ [comp]
        else if initialSlashes = 0 ∧ acc.isEmpty then acc ++ [comp]
        else if acc.getLast? = some ".." then acc ++ [comp]
        else if !acc.isEmpty then acc.dropLast
        else acc)
      []
    let joined := String.mk (List.replicate initialSlashes '/') ++
      String.intercalate "/" newComps
    if joined = "" then "." else joined

/-- Embedding of `resolve_relative_submodule_url(parent_url, relative)`.
`os.path.normpath(base_path / relative)` is modelled as `pyNormpath` of
the textual join: `PurePosixPath./` only drops `.` segments and collapses
slashes, which `normpath` performs again, so the composite agrees with
normalizing the naive join (an absolute `relative` replaces the base, as
in pathlib). -/
def resolve_relative_submodule_url (parent_url relative : String) : String :=
  let normalized := ssh_shorthand_normalize parent_url
  let parsed := pyUrlparse normalized
  let base_path := posixParent parsed.path
  let joined := if pyStartsWith relative "/" then relative
    else base_path ++ "/" ++ relative
  let resolved_path := pyNormpath joined
  parsed.scheme ++ "://" ++ parsed.netloc ++ resolved_path

/-!
## Submodule enumeration (main.py lines 150-192)

`get_submodules` parses `.gitmodules` with `configparser` (structural
descriptor parsing is an external collaborator, spec §1 "out of scope"),
so the embedding takes the extracted `(name, path, url)` triples as
input, together with the raw `git ls-tree -r <commit>` output and the
parent origin URL that `git remote get-url origin` reports. The lazy
one-time origin lookup has no observable effect on the result (the origin
is fixed for the parent), so the embedding passes the origin value
directly.
-/

inductive SubErr where
  /-- `IndexError` from `parts[1]` / `parts[2]` / `parts[3]` on a
  malformed `ls-tree` line. -/
  | indexErr
  /-- `RuntimeError: no SHA found for submodule path ...`. -/
  | noShaFor (path : String)
  deriving DecidableEq, Repr

/-- Python `dict` insertion: later assignment to the same key overwrites
(keys are unique since this is the only constructor, so replacing the
first occurrence models `d[k] = v` exactly), first-insertion order kept —
order is irrelevant to lookups. -/
def dinsert : List (String × String) → String → String → List (String × String)
  | [], k, v => [(k, v)]
  | e :: rest, k, v => if e.1 == k then (k, v) :: rest else e :: dinsert rest k v

/-- Python `dict` lookup. -/
def dlookup (m : List (String × String)) (k : String) : Option String :=
  (m.find? (fun e => e.1 == k)).map (fun e => e.2)

/-- Processing of one `ls-tree -r` output line (main.py lines 168-171):
split on whitespace; if field 2 is `"commit"`, record field 4 (the path)
mapping to field 3 (the SHA); accessing a missing field raises
`IndexError`. -/
def path_to_sha_step (m : List (String × String)) (line : String) :
    Except SubErr (List (String × String)) :=
  match pySplit line with
  | _ :: kind :: restp =>
    if kind = "commit" then
      match restp with
      | sha :: path :: _ => .ok (dinsert m path sha)
      | _ => .error SubErr.indexErr
    else .ok m
  | _ => .error SubErr.indexErr

/-- The `for line in tree_output.splitlines()` loop (main.py lines
168-171), threading the dictionary. -/
def path_to_sha_loop : List String → List (String × String) →
    Except SubErr (List (String × String))
  | [], m => .ok m
  | line :: rest, m =>
    match path_to_sha_step m line with
    | .error e => .error e
    | .ok m1 => path_to_sha_loop rest m1

/-- The `path_to_sha` dictionary built from the `ls-tree -r` output
(main.py lines 166-171). -/
def build_path_to_sha (treeOut : String) : Except SubErr (List (String × String)) :=
  path_to_sha_loop (pysplitlines (pyStrip treeOut)) []

structure Submodule where
  name : String
  path : String
  url : String
  hash : String
  deriving DecidableEq, Repr

/-- One iteration of the descriptor loop (main.py lines 177-190): the
pinned SHA is looked up in `path_to_sha` (a missing path raises
`RuntimeError`); a relative URL (leading `./` or `../`) first has one
leading `.` of a `../` prefix stripped (`url = url[1:]`) and is then
resolved against the parent origin URL. -/
def submodule_of_triple (m : List (String × String)) (originUrl : String)
    (t : String × String × String) : Except SubErr Submodule :=
  match dlookup m t.2.1 with
  | none => .error (SubErr.noShaFor t.2.1)
  | some sha =>
    let url := t.2.2
    let url :=
      if pyStartsWith url "./" || pyStartsWith url "../" then
        let url := if pyStartsWith url "../" then url.drop 1 else url
        resolve_relative_submodule_url originUrl url
      else url
    .ok ⟨t.1, t.2.1, url, sha⟩

/-- The `for name, path, url in submodules` loop (main.py lines 177-190),
accumulating the output list. -/
def submodule_loop (m : List (String × String)) (originUrl : String) :
    List (String × String × String) → List Submodule →
    Except SubErr (List Submodule)
  | [], acc => .ok acc
  | t :: rest, acc =>
    match submodule_of_triple m originUrl t with
    | .error e => .error e
    | .ok sm => submodule_loop m originUrl rest (acc ++ [sm])

/-- Embedding of the descriptor loop of `get_submodules` (main.py lines
152-192) given the parsed `(name, path, url)` triples, the raw
`ls-tree -r` output and the parent origin URL. -/
def get_submodules_core (triples : List (String × String × String))
    (treeOut : String) (originUrl : String) : Except SubErr (List Submodule) :=
  match build_path_to_sha treeOut with
  | .error e => .error e
  | .ok m => submodule_loop m originUrl triples []

/-- Declarative reading of one tree-listing line: the `(path, sha)` pair
when the line describes an object of kind `"commit"` (a gitlink). -/
def parse_commit_line (line : String) : Option (String × String) :=
  match pySplit line with
  | _ :: kind :: sha :: path :: _ =>
    if kind = "commit" then some (path, sha) else none
  | _ => none

/-- Declarative reading of the tree listing: the `(path, sha)` pairs of
the object-kind `"commit"` entries, in line order. -/
def tree_commit_records (treeOut : String) : List (String × String) :=
  (pysplitlines (pyStrip treeOut)).filterMap parse_commit_line

/-- The SHA the parent commit's recursive tree listing records for a path
under object-kind `"commit"` (the last matching line wins, as for a
Python dict built in line order). -/
def tree_commit_sha (treeOut : String) (path : String) : Option String :=
  dlookup (tree_commit_records treeOut).reverse path

/-!
## The checkout cache (main.py lines 70-80 and 196-222)

```python
def checkout(url: str, ref: str, fetch: bool) -> Path:
    maybe_checkout_repo = checkout_root_dir / hash_str(f"{url}@{ref}")
    if maybe_checkout_repo.exists():
        return maybe_checkout_repo
    metadata_repo = get_metadata_repo(url)
    commit = get_commit(metadata_repo, ref, fetch)
    checkout_repo = checkout_root_dir / hash_str(f"{url}@{commit}")
    if checkout_repo.exists():
        return checkout_repo
    run_git(["clone", metadata_repo, f"--revision={commit}", checkout_repo])
    for sm in get_submodules(metadata_repo, checkout_repo, commit):
        submodule_repo = checkout(sm.url, sm.hash, fetch=False)
        create_symlink(checkout_repo / sm.path, submodule_repo, force=True)
    return checkout_repo
```

The world outside the process is a record of per-URL oracles: the git
behaviour of each URL's metadata repository, and — once a commit is
checked out — the parsed `.gitmodules` triples (`none` when the checkout
has no `.gitmodules` file), the raw `ls-tree -r` output, and the
`git remote get-url origin` answer. The mutable facts (which metadata
clones and checkout entries exist, modelled by their cache keys; the
event trace) live in `St`. Directory existence is existence of the key,
exactly as the code trusts it (spec §7). The recursion is fuel-indexed;
the Python recursion has no such bound, so theorems quantify over fuel or
note it. `create_symlink` on checkout trees is recorded as a `link`
event: checkout-tree contents are not part of this state. -/

structure World where
  git : String → GitOracle
  gitmodules : String → String → Option (List (String × String × String))
  treeOut : String → String → String
  origin : String → String

structure St where
  metadata : List String
  checkouts : List String
  deriving DecidableEq, Repr

inductive CoErr where
  /-- recursion fuel exhausted (an artifact of the embedding only) -/
  | fuel
  /-- `RuntimeError` from `get_commit` -/
  | unresolved (msg : String)
  /-- `IndexError` / `RuntimeError` from `get_submodules` -/
  | submodule (e : SubErr)
  deriving DecidableEq, Repr

/-- `checkout_root_dir / key` relative to the cache root. -/
def checkout_dir_path (key : String) : String := "checkout/" ++ key

/-- Whether an event is a `checkout` entry event. -/
def GEvent.isEnter : GEvent → Bool
  | .enter _ _ _ => true
  | _ => false

/-- Whether an event is one of the five subprocess interactions the ref
resolver (`get_commit` with `is_known_branch`) can perform. -/
def GEvent.isResolverEvent : GEvent → Bool
  | .verify _ => true
  | .revParse _ => true
  | .listBranches => true
  | .freshFetch _ => true
  | .fallbackFetch _ => true
  | _ => false

/-- `k` is a checkout-cache key formed from some url and the identifier
some `get_commit` call on that url's metadata repository can return. -/
def NewKeyOf (w : World) (k : String) : Prop :=
  ∃ u c, k = hash_str (u ++ "@" ++ c) ∧
    ∃ r f, (get_commit (w.git u) r f).1 = .ok c

mutual

/-- One call of `checkout(url, ref, fetch)`: the fuel bound is consumed,
the `enter` event marking this invocation (with its fetch flag) is
prepended, and the body runs. -/
def checkout (w : World) (fuel : Nat) (st : St) (url ref : String) (fetch : Bool) :
    Except CoErr (String × St) × List GEvent :=
  match fuel with
  | 0 => (.error .fuel, [])
  | fuel + 1 =>
    let inner := checkout_body w fuel st url ref fetch
    (inner.1, .enter url ref fetch :: inner.2)
termination_by (fuel, 0, 0)

/-- The body of `checkout` (main.py lines 200-222), straight-line from
the fast path to the submodule loop. The events of each subprocess
interaction are collected in call order. -/
def checkout_body (w : World) (fuel : Nat) (st : St) (url ref : String) (fetch : Bool) :
    Except CoErr (String × St) × List GEvent :=
  let key := hash_str (url ++ "@" ++ ref)
  if key ∈ st.checkouts then (.ok (checkout_dir_path key, st), [])
  else
    -- get_metadata_repo(url): clone on first access
    let evm : List GEvent := if url ∈ st.metadata then [] else [.cloneMetadata url]
    let st := if url ∈ st.metadata then st
      else { st with metadata := st.metadata ++ [url] }
    match get_commit (w.git url) ref fetch with
    | (.error e, evs) => (.error (.unresolved e), evm ++ evs)
    | (.ok commit, evs) =>
      let ev2 := evm ++ evs
      let key2 := hash_str (url ++ "@" ++ commit)
      if key2 ∈ st.checkouts then (.ok (checkout_dir_path key2, st), ev2)
      else
        let st := { st with checkouts := st.checkouts ++ [key2] }
        let ev3 := ev2 ++ [.cloneCheckout url commit]
        match w.gitmodules url commit with
        | none => (.ok (checkout_dir_path key2, st), ev3)
        | some triples =>
          match get_submodules_core triples (w.treeOut url commit) (w.origin url) with
          | .error e => (.error (.submodule e), ev3)
          | .ok sms =>
            match checkout_subs w fuel st key2 sms with
            | (.error e, evs2) => (.error e, ev3 ++ evs2)
            | (.ok st, evs2) => (.ok (checkout_dir_path key2, st), ev3 ++ evs2)
termination_by (fuel, 2, 0)

/-- The `for sm in get_submodules(...)` loop of `checkout`: recursive
`checkout(sm.url, sm.hash, fetch=False)` then
`create_symlink(checkout_repo / sm.path, submodule_repo, force=True)`
(recorded as a `link` event). -/
def checkout_subs (w : World) (fuel : Nat) (st : St) (key2 : String)
    (sms : List Submodule) : Except CoErr St × List GEvent :=
  match sms with
  | [] => (.ok st, [])
  | sm :: rest =>
    match checkout w fuel st sm.url sm.hash false with
    | (.error e, evs) => (.error e, evs)
    | (.ok (p, st1), evs) =>
      match checkout_subs w fuel st1 key2 rest with
      | (r, evs2) => (r, evs ++ [.link key2 sm.path p] ++ evs2)
termination_by (fuel, 1, sms.length)

end

/-- A world whose git oracles never resolve anything (sufficient for the
fast-path witness, which must not consult them). -/
def wTrivial : World :=
  { git := fun _ => gOracleRevParseOnly
    gitmodules := fun _ _ => none
    treeOut := fun _ _ => ""
    origin := fun _ => "" }

/-- A cache state that already has the checkout entry for `u@abc`. -/
def stFast : St := { metadata := [], checkouts := ["u@abc"] }

/-- A 40-character ref. -/
def ref40 : String := "0123456789abcdef0123456789abcdef01234567"

/-- A metadata repository in which exactly `ref40` verifies as a commit
object and nothing else resolves. -/
def gOracleCat40 : GitOracle :=
  { catOk := fun s => s == ref40
    revParse := fun _ => none
    fetchOk := fun _ => false
    branchOut := none }

def wCat40 : World :=
  { git := fun _ => gOracleCat40
    gitmodules := fun _ _ => none
    treeOut := fun _ _ => ""
    origin := fun _ => "" }

/-- The empty cache state. -/
def stEmpty : St := { metadata := [], checkouts := [] }

/-- A metadata repository that has never seen the tag `v1.0`
(`rev-parse` fails) but whose remote can fetch it directly. -/
def gOracleFallback : GitOracle :=
  { catOk := fun _ => false
    revParse := fun _ => none
    fetchOk := fun s => s == "v1.0"
    branchOut := some "" }

def wFallback : World :=
  { git := fun _ => gOracleFallback
    gitmodules := fun _ _ => none
    treeOut := fun _ _ => ""
    origin := fun _ => "" }

/-!
## Filesystem model for the symlink manager (main.py lines 36-66) and
the view materializer (main.py lines 226-268)

An absolute path is its list of components from the root; the filesystem
is a finite association list from paths to nodes (regular file,
directory, or symbolic link storing its — absolute — target, which is
what the program creates: `path.symlink_to(target.resolve())`).
Modelling choices, documented against POSIX/CPython behaviour:
* file identity (`os.path.samefile`, which compares `stat` device and
  inode) is identity of the fully resolved path — the program never
  creates hard links;
* symlink resolution follows leaf symlink chains with fuel
  `fs.length + 1`, enough for every loop-free chain; a chain that loops
  forever resolves to `none`, standing for the `ELOOP`/`OSError` that
  `os.stat` and `Path.resolve` raise on loops;
* symlinks in intermediate (directory) components are not modelled: the
  program creates and inspects symlinks only at leaf positions;
* `os.makedirs(..., exist_ok=True)` inserts a directory at every missing
  prefix and leaves existing entries alone.
-/

abbrev FPath := List String

inductive FNode where
  | file
  | dir
  | symlink (target : FPath)
  deriving DecidableEq, Repr

abbrev FS := List (FPath × FNode)

def FS.lookup (fs : FS) (p : FPath) : Option FNode :=
  (fs.find? (fun e => e.1 == p)).map (fun e => e.2)

/-- Canonical insert: replace the first binding of the key, else append. -/
def FS.insert : FS → FPath → FNode → FS
  | [], p, n => [(p, n)]
  | e :: rest, p, n => if e.1 == p then (p, n) :: rest else e :: FS.insert rest p n

/-- `os.unlink` / `Path.unlink`: drop the entry at the path. -/
def FS.erase (fs : FS) (p : FPath) : FS :=
  fs.filter (fun e => !(e.1 == p))

/-- `shutil.rmtree`: drop the path and everything below it. -/
def FS.eraseTree (fs : FS) (p : FPath) : FS :=
  fs.filter (fun e => !(p.isPrefixOf e.1))

/-- Follow the symlink chain at a path with the given fuel. -/
def resolveFuel (fs : FS) : Nat → FPath → Option FPath
  | 0, _ => none
  | n + 1, p =>
    match fs.lookup p with
    | some (.symlink t) => resolveFuel fs n t
    | _ => some p

/-- `Path.resolve(strict=False)`: a nonexistent path resolves to itself,
a symlink chain to its final target; `none` models the error raised on a
symlink loop (`fs.length + 1` steps suffice for any loop-free chain). -/
def FS.resolve (fs : FS) (p : FPath) : Option FPath :=
  resolveFuel fs (fs.length + 1) p

/-- `Path.exists()` (follows symlinks; `False` on a dangling link or a
loop, where `os.stat` raises and `exists` swallows the error). -/
def FS.pexists (fs : FS) (p : FPath) : Bool :=
  match fs.resolve p with
  | some q => (fs.lookup q).isSome
  | none => false

/-- `Path.is_symlink()` (an `lstat`: looks at the path itself). -/
def FS.is_symlink (fs : FS) (p : FPath) : Bool :=
  match fs.lookup p with
  | some (.symlink _) => true
  | _ => false

/-- `Path.is_file()` (follows symlinks; `False` on errors). -/
def FS.is_file (fs : FS) (p : FPath) : Bool :=
  match fs.resolve p with
  | some q => fs.lookup q == some .file
  | none => false

/-- `Path.is_dir()` (follows symlinks; `False` on errors). -/
def FS.is_dir (fs : FS) (p : FPath) : Bool :=
  match fs.resolve p with
  | some q => fs.lookup q == some .dir
  | none => false

/-- `Path.samefile(target)`: `some b` when both sides `stat`
successfully (`b` = same underlying file), `none` when `stat` raises
(nonexistent final target, or a symlink loop). -/
def FS.samefile (fs : FS) (p t : FPath) : Option Bool :=
  match fs.resolve p, fs.resolve t with
  | some a, some b =>
    if (fs.lookup a).isSome && (fs.lookup b).isSome then some (a == b) else none
  | _, _ => none

/-- The nonempty prefixes of a path, shortest first. -/
def prefixesOf (p : FPath) : List FPath :=
  (List.range p.length).map (fun i => p.take (i + 1))

/-- One step of `os.makedirs`: create the directory if missing. -/
def mkdirStep (acc : FS × List FPath) (q : FPath) : FS × List FPath :=
  match FS.lookup acc.1 q with
  | none => (FS.insert acc.1 q .dir, acc.2 ++ [q])
  | some _ => acc

/-- `os.makedirs(p, exist_ok=True)`: create a directory at every missing
prefix (the created paths are returned alongside). -/
def FS.makedirs (fs : FS) (p : FPath) : FS × List FPath :=
  (prefixesOf p).foldl mkdirStep (fs, [])

inductive LinkEffect where
  | unlinkE (p : FPath)
  | rmtreeE (p : FPath)
  | mkdirE (p : FPath)
  | symlinkE (p t : FPath)
  deriving DecidableEq, Repr

inductive LinkErr where
  /-- `RuntimeError: Target path ... already exists and is not a symlink` -/
  | conflict
  /-- the `OSError` `target.resolve()` raises on a symlink loop -/
  | loopResolve
  deriving DecidableEq, Repr

structure LinkResult where
  fs : FS
  effects : List LinkEffect
  err : Option LinkErr
  deriving DecidableEq, Repr

/-- The tail of `create_symlink` (main.py lines 63-66), reached once the
destination is clear: `os.makedirs(path.parent, exist_ok=True)` then
`path.symlink_to(target.resolve())`. -/
def link_finish (fs : FS) (path target : FPath) (effs : List LinkEffect) : LinkResult :=
  let md := FS.makedirs fs path.dropLast
  match FS.resolve md.1 target with
  | none => { fs := md.1, effects := effs ++ md.2.map .mkdirE, err := some .loopResolve }
  | some rt =>
    { fs := FS.insert md.1 path (.symlink rt)
      effects := effs ++ md.2.map .mkdirE ++ [.symlinkE path rt]
      err := none }

/-- Embedding of `create_symlink(path, target, force, quiet)` (main.py
lines 36-66). `quiet` only silences progress output and is omitted. The
`try: same_file = path.samefile(target) except: pass` is the `getD
false`. Mutating effects are recorded; the error cases leave the
filesystem exactly as it stands at raise time. -/
def create_symlink (fs : FS) (path target : FPath) (force : Bool) : LinkResult :=
  if fs.pexists path || fs.is_symlink path then
    let same := (fs.samefile path target).getD false
    if same then { fs := fs, effects := [], err := none }
    else if fs.is_symlink path then
      link_finish (fs.erase path) path target [.unlinkE path]
    else if force then
      if fs.is_file path then link_finish (fs.erase path) path target [.unlinkE path]
      else link_finish (fs.eraseTree path) path target [.rmtreeE path]
    else { fs := fs, effects := [], err := some .conflict }
  else link_finish fs path target []

/-- Invariant of one `checkout` call: every checkout entry of the output
state was already present or is keyed by `digest(u + "@" + c)` for some
url `u` and a commit identifier `c` that `get_commit` on `u`'s metadata
repository returns; and every recorded `enter` event is the call itself
or carries `fetch = false`. -/
def CheckoutClause (w : World) (fuel : Nat) : Prop :=
  ∀ st url ref fetch res evs, checkout w fuel st url ref fetch = (res, evs) →
    (∀ p st', res = .ok (p, st') →
      ∀ k ∈ st'.checkouts, k ∈ st.checkouts ∨ NewKeyOf w k)
    ∧ (∀ e ∈ evs, e.isEnter = true →
        e = GEvent.enter url ref fetch ∨ ∃ u r, e = GEvent.enter u r false)

/-- Invariant of the submodule loop: new checkout entries are resolver
keys, and every `enter` event carries `fetch = false`. -/
def SubsClause (w : World) (fuel : Nat) : Prop :=
  ∀ st key2 sms res evs, checkout_subs w fuel st key2 sms = (res, evs) →
    (∀ st', res = .ok st' →
      ∀ k ∈ st'.checkouts, k ∈ st.checkouts ∨ NewKeyOf w k)
    ∧ (∀ e ∈ evs, e.isEnter = true → ∃ u r, e = GEvent.enter u r false)

/-- Invariant of the `checkout` body: new checkout entries are resolver
keys, and every `enter` event (all of which come from submodule
recursion) carries `fetch = false`. -/
def BodyClause (w : World) (fuel : Nat) : Prop :=
  ∀ st url ref fetch res evs, checkout_body w fuel st url ref fetch = (res, evs) →
    (∀ p st', res = .ok (p, st') →
      ∀ k ∈ st'.checkouts, k ∈ st.checkouts ∨ NewKeyOf w k)
    ∧ (∀ e ∈ evs, e.isEnter = true → ∃ u r, e = GEvent.enter u r false)

/-- The local `is_checkout` of `make_view` (main.py lines 235-236):
`p.parent == checkout_root_dir`, with the checkout root passed in as
`croot`. -/
def is_checkout (croot : FPath) (p : FPath) : Bool := p.dropLast == croot

/-- `Path.iterdir()`: the names of the direct children of directory `p`,
in filesystem order. -/
def childNames (fs : FS) (p : FPath) : List String :=
  fs.filterMap (fun e => if e.1.dropLast == p then e.1.getLast? else none)

inductive ViewErr where
  /-- the `AttributeError` from `target.resolve()` when `create_symlink`
  receives the plain string returned by `os.readlink` -/
  | strAttrError
  /-- an error raised inside a `create_symlink` call on `Path` arguments -/
  | linkErr (e : LinkErr)
  /-- `FileExistsError` from `mkdir(exist_ok=True)` over a non-directory -/
  | mkdirConflict
  /-- `OSError` from `Path.resolve()` on a symlink loop at either root -/
  | resolveErr
  /-- the traversal exceeded its fuel (the source recursion can loop
  forever on cyclic checkout links) -/
  | fuelOut
  deriving DecidableEq, Repr

/-- `dst.mkdir(exist_ok=True)` (main.py lines 246 and 257): a no-op when
the path already is a directory (following symlinks), creates it when
absent, raises `FileExistsError` otherwise. -/
def fsMkdir (fs : FS) (p : FPath) : Except ViewErr FS :=
  if fs.is_dir p then .ok fs
  else
    match fs.lookup p with
    | none => .ok (fs.insert p .dir)
    | some _ => .error .mkdirConflict

/-- The nested `replicate` recursion of `make_view` (main.py lines
238-259) as a depth-first worklist: the pending `(src, dst)` pairs are
processed in order and a directory's children are pushed in front, so
the visit order and the effects coincide with the recursive original;
`fuel` bounds the traversal. One symlink entry stands for
`os.readlink`'s result; targets in this model are absolute paths, so
`os.path.isabs(target)` holds. A symlink whose target is a directory
directly under `croot` is exploded (`dst.mkdir` then the target's
children); any other symlink reaches `create_symlink(dst, target)` with
`target` the plain `str` from `os.readlink`, which — unless the
same-file early return fires — executes `target.resolve()` and dies
with `AttributeError` (modelled as `.strAttrError`). A directory is
recreated and recursed into; a file becomes a symlink to the source
file; a missing source is skipped (no `if` branch matches). -/
def replicateF (croot : FPath) : Nat → FS → List (FPath × FPath) → Except ViewErr FS
  | _, fs, [] => .ok fs
  | 0, _, _ :: _ => .error .fuelOut
  | fuel + 1, fs, (src, dst) :: rest =>
    match fs.lookup src with
    | some (.symlink target) =>
      if fs.is_dir target && is_checkout croot target then
        match fsMkdir fs dst with
        | .error e => .error e
        | .ok fs1 =>
          replicateF croot fuel fs1
            (((childNames fs1 target).map (fun n => (target ++ [n], dst ++ [n]))) ++ rest)
      else if (fs.pexists dst || fs.is_symlink dst)
          && (fs.samefile dst target).getD false then
        replicateF croot fuel fs rest
      else .error .strAttrError
    | some .dir =>
      match fsMkdir fs dst with
      | .error e => .error e
      | .ok fs1 =>
        replicateF croot fuel fs1
          (((childNames fs1 src).map (fun n => (src ++ [n], dst ++ [n]))) ++ rest)
    | some .file =>
      match (create_symlink fs dst src false).err with
      | some e => .error (.linkErr e)
      | none => replicateF croot fuel (create_symlink fs dst src false).fs rest
    | none => replicateF croot fuel fs rest

/-- `make_view(src_root, dst_root)` (main.py lines 226-268): resolve
both roots, `os.makedirs(dst_root, exist_ok=True)`, link
`dst_root/.git -> src_root/.git`, then replicate every child of
`src_root` except `.git`. -/
def make_view (croot : FPath) (fuel : Nat) (fs : FS) (src_root dst_root : FPath) :
    Except ViewErr FS :=
  match fs.resolve src_root, fs.resolve dst_root with
  | some s, some d =>
    let fs1 := (FS.makedirs fs d).1
    match (create_symlink fs1 (d ++ [".git"]) (s ++ [".git"]) false).err with
    | some e => .error (.linkErr e)
    | none =>
      let fs2 := (create_symlink fs1 (d ++ [".git"]) (s ++ [".git"]) false).fs
      let names := (childNames fs2 s).filter (fun n => !(n == ".git"))
      replicateF croot fuel fs2 (names.map (fun n => (s ++ [n], d ++ [n])))
  | _, _ => .error .resolveErr

def cr9 : FPath := ["cache", "checkout"]

def p9 : FPath := ["cache", "checkout", "pdig"]

def s9 : FPath := ["cache", "checkout", "sdig"]

/-- A parent checkout `pdig` (a `.git` directory, a README file and the
submodule link `sub -> sdig`), the submodule checkout `sdig` (a file, a
directory and a file inside it), and an unrelated tool directory outside
the cache. -/
def fsViewOk : FS :=
  [ (["cache"], .dir), (["cache", "checkout"], .dir),
    (p9, .dir), (p9 ++ [".git"], .dir), (p9 ++ ["README"], .file),
    (p9 ++ ["sub"], .symlink s9),
    (s9, .dir), (s9 ++ ["a.txt"], .file), (s9 ++ ["lib"], .dir),
    (s9 ++ ["lib", "b.txt"], .file),
    (["opt"], .dir), (["opt", "tool"], .dir) ]

/-- The same checkout with one extra symlink `ext` pointing outside the
checkout cache, at the directory `/opt/tool`. -/
def fsView : FS := fsViewOk ++ [(p9 ++ ["ext"], FNode.symlink ["opt", "tool"])]

end GitCache

namespace GitCache

/-- A verified 40-character ref resolves to itself with a single local
`cat-file` check, independently of the `fetch` flag. -/
theorem get_commit_of_len40_verified (g : GitOracle) (ref : String) (fetch : Bool)
    (h40 : ref.length = 40) (hcat : g.catOk ref = true) :
    get_commit g ref fetch = (.ok ref, [.verify ref]) := by
  simp [get_commit, get_commit_try, h40, hcat]

/-- `fetch_if_update_and_branch` raises exactly when the fetch flag is set,
the ref is a known branch, and `git fetch origin ref` fails. -/
theorem fiub_none_iff (g : GitOracle) (ref : String) (fetch : Bool) :
    (fetch_if_update_and_branch g ref fetch).2 = none ↔
      (fetch && is_known_branch g.branchOut ref && !g.fetchOk ref) = true := by
  unfold fetch_if_update_and_branch
  cases fetch <;> cases hk : is_known_branch g.branchOut ref <;>
    cases hfo : g.fetchOk ref <;> simp [hk, hfo]

/-- The freshness-fetch helper records no fallback fetch. -/
theorem fiub_no_fallback (g : GitOracle) (ref : String) (fetch : Bool) :
    ∀ e ∈ (fetch_if_update_and_branch g ref fetch).1, e.isFallbackFetch = false := by
  unfold fetch_if_update_and_branch
  cases fetch <;> cases hk : is_known_branch g.branchOut ref <;>
    cases hfo : g.fetchOk ref <;> simp [hk, hfo, GEvent.isFallbackFetch]

/-- The try block of `get_commit` raises `CalledProcessError` exactly when
`local_resolution_fails` says so. -/
theorem get_commit_try_none_iff (g : GitOracle) (ref : String) (fetch : Bool) :
    (get_commit_try g ref fetch).1 = none ↔
      local_resolution_fails g ref fetch = true := by
  have hu := fiub_none_iff g ref fetch
  unfold get_commit_try local_resolution_fails
  rcases hf : fetch_if_update_and_branch g ref fetch with ⟨evs, u⟩
  rw [hf] at hu
  by_cases h40 : ref.length = 40
  · by_cases hcat : g.catOk ref = true
    · simp [h40, hcat]
    · cases u with
      | none =>
        have hfr : (fetch && is_known_branch g.branchOut ref && !g.fetchOk ref) = true :=
          hu.mp rfl
        simp [h40, hcat, hfr]
      | some _ =>
        have hfr : (fetch && is_known_branch g.branchOut ref && !g.fetchOk ref) = false := by
          cases hx : (fetch && is_known_branch g.branchOut ref && !g.fetchOk ref)
          · rfl
          · exact absurd (hu.mpr hx) (by simp)
        rcases hrp : g.revParse ref with _ | c
        · simp [h40, hcat, hrp, hfr]
        · cases hcc : g.catOk c <;> simp [h40, hcat, hrp, hcc, hfr]
  · cases u with
    | none =>
      have hfr : (fetch && is_known_branch g.branchOut ref && !g.fetchOk ref) = true :=
        hu.mp rfl
      simp [h40, hfr]
    | some _ =>
      have hfr : (fetch && is_known_branch g.branchOut ref && !g.fetchOk ref) = false := by
        cases hx : (fetch && is_known_branch g.branchOut ref && !g.fetchOk ref)
        · rfl
        · exact absurd (hu.mpr hx) (by simp)
      rcases hrp : g.revParse ref with _ | c <;> simp [h40, hrp, hfr]

/-- The try block of `get_commit` records no fallback fetch. -/
theorem get_commit_try_no_fallback (g : GitOracle) (ref : String) (fetch : Bool) :
    ∀ e ∈ (get_commit_try g ref fetch).2, e.isFallbackFetch = false := by
  unfold get_commit_try
  rcases hf : fetch_if_update_and_branch g ref fetch with ⟨evs, u⟩
  have hevs := fiub_no_fallback g ref fetch
  rw [hf] at hevs
  simp only at hevs
  by_cases h40 : ref.length = 40
  · by_cases hcat : g.catOk ref = true
    · simp [h40, hcat, GEvent.isFallbackFetch]
    · cases u with
      | none =>
        simp only [h40, beq_self_eq_true, if_true, hcat, Bool.false_eq_true, if_false]
        intro e he
        rcases List.mem_cons.mp he with rfl | he
        · rfl
        · exact hevs e he
      | some _ =>
        rcases hrp : g.revParse ref with _ | c
        · simp only [h40, beq_self_eq_true, if_true, hcat, Bool.false_eq_true,
            if_false, hrp]
          intro e he
          rcases List.mem_cons.mp he with rfl | he
          · rfl
          rcases List.mem_append.mp he with he | he
          · exact hevs e he
          rcases List.mem_singleton.mp he with rfl
          rfl
        · simp only [h40, beq_self_eq_true, if_true, hcat, Bool.false_eq_true,
            if_false, hrp]
          intro e he
          have he' : e = .verify ref ∨ e ∈ evs ∨ e = .revParse ref ∨ e = .verify c := by
            cases hcc : g.catOk c <;> rw [hcc] at he <;> simp at he <;> tauto
          rcases he' with rfl | he' | rfl | rfl
          · rfl
          · exact hevs e he'
          · rfl
          · rfl
  · have h40' : (ref.length == 40) = false := by simp [h40]
    cases u with
    | none =>
      simp only [h40', Bool.false_eq_true, if_false]
      exact hevs
    | some _ =>
      rcases hrp : g.revParse ref with _ | c <;>
      · simp only [h40', Bool.false_eq_true, if_false, hrp]
        intro e he
        rcases List.mem_append.mp he with he | he
        · exact hevs e he
        rcases List.mem_singleton.mp he with rfl
        rfl

/-- C4 counterexample: for a non-40-character ref the code performs no
commit verification after `rev-parse` — when `rev-parse somebranch`
succeeds with an output that fails commit verification and the direct
fetch of the ref also fails (so the claim's condition "local resolution
(rev-parse plus commit verification) and the single fallback direct fetch
both fail" holds), `get_commit` nevertheless succeeds, returning the
unverified rev-parse output instead of raising the unresolved-ref error. -/
theorem get_commit_c4_counterexample :
    (get_commit gOracleRevParseOnly "somebranch" false).1 = .ok "badc0ffee"
    ∧ gOracleRevParseOnly.revParse "somebranch" = some "badc0ffee"
    ∧ gOracleRevParseOnly.catOk "badc0ffee" = false
    ∧ gOracleRevParseOnly.fetchOk "somebranch" = false := by
  exact ⟨rfl, rfl, rfl, rfl⟩

/-- C4 (amended): `get_commit(metadata_repo, ref, fetch)` fails with the
unresolved-ref error — surfaced with the offending ref (the URL is not
part of the message; `get_commit` only receives the metadata path) —
exactly when the local try block fails (for 40-character refs: direct
commit-object verification, then optionally freshness fetch, rev-parse
and verification of the rev-parse output; otherwise: optionally freshness
fetch, then rev-parse with no further commit verification) and the single
fallback direct fetch of `ref` also fails; no resolution step is retried
beyond that one fallback fetch (at most one fallback fetch is ever
performed). -/
theorem get_commit_unresolved_spec (g : GitOracle) (ref : String) (fetch : Bool) :
    ((get_commit g ref fetch).1 = .error (unresolved_msg ref) ↔
      local_resolution_fails g ref fetch = true ∧ g.fetchOk ref = false)
    ∧ (∀ m, (get_commit g ref fetch).1 = .error m → m = unresolved_msg ref)
    ∧ (get_commit g ref fetch).2.countP GEvent.isFallbackFetch ≤ 1 := by
  have hnone := get_commit_try_none_iff g ref fetch
  have hnf := get_commit_try_no_fallback g ref fetch
  unfold get_commit
  rcases htry : get_commit_try g ref fetch with ⟨o, evs⟩
  rw [htry] at hnone hnf
  simp only at hnone hnf
  have hcount : evs.countP GEvent.isFallbackFetch = 0 :=
    List.countP_eq_zero.mpr (by intro a ha; simp [hnf a ha])
  cases o with
  | some c =>
    refine ⟨⟨fun h => absurd h (by simp), fun h => absurd (hnone.mpr h.1) (by simp)⟩,
      fun m hm => absurd hm (by simp), ?_⟩
    simp [hcount]
  | none =>
    have hlrf : local_resolution_fails g ref fetch = true := hnone.mp rfl
    have hc1 : (evs ++ [GEvent.fallbackFetch ref]).countP GEvent.isFallbackFetch = 1 := by
      rw [List.countP_append, hcount]
      simp [List.countP_cons, GEvent.isFallbackFetch]
    cases hfo : g.fetchOk ref
    · refine ⟨⟨fun _ => ⟨hlrf, rfl⟩, fun _ => ?_⟩, fun m hm => ?_, ?_⟩
      · simp [hfo, unresolved_msg]
      · simp only [hfo, Bool.false_eq_true, if_false] at hm
        exact (Except.error.inj hm).symm
      · simp [hfo, hc1]
    · refine ⟨⟨fun h => ?_, fun h => ?_⟩, fun m hm => ?_, ?_⟩
      · simp [hfo] at h
      · exact absurd h.2 (by simp [hfo])
      · simp [hfo] at hm
      · simp [hfo, hc1]

/-- The freshness-fetch helper records only resolver events. -/
theorem fiub_events_resolver (g : GitOracle) (ref : String) (fetch : Bool) :
    ∀ e ∈ (fetch_if_update_and_branch g ref fetch).1, e.isResolverEvent = true := by
  unfold fetch_if_update_and_branch
  cases fetch <;> cases hk : is_known_branch g.branchOut ref <;>
    cases hfo : g.fetchOk ref <;> simp [hk, hfo, GEvent.isResolverEvent]

/-- The try block of `get_commit` records only resolver events. -/
theorem get_commit_try_events_resolver (g : GitOracle) (ref : String) (fetch : Bool) :
    ∀ e ∈ (get_commit_try g ref fetch).2, e.isResolverEvent = true := by
  unfold get_commit_try
  rcases hf : fetch_if_update_and_branch g ref fetch with ⟨evs, u⟩
  have hevs := fiub_events_resolver g ref fetch
  rw [hf] at hevs
  simp only at hevs
  by_cases h40 : ref.length = 40
  · by_cases hcat : g.catOk ref = true
    · simp [h40, hcat, GEvent.isResolverEvent]
    · cases u with
      | none =>
        simp only [h40, beq_self_eq_true, if_true, hcat, Bool.false_eq_true, if_false]
        intro e he
        rcases List.mem_cons.mp he with rfl | he
        · rfl
        · exact hevs e he
      | some _ =>
        rcases hrp : g.revParse ref with _ | c
        · simp only [h40, beq_self_eq_true, if_true, hcat, Bool.false_eq_true,
            if_false, hrp]
          intro e he
          rcases List.mem_cons.mp he with rfl | he
          · rfl
          rcases List.mem_append.mp he with he | he
          · exact hevs e he
          rcases List.mem_singleton.mp he with rfl
          rfl
        · simp only [h40, beq_self_eq_true, if_true, hcat, Bool.false_eq_true,
            if_false, hrp]
          intro e he
          have he' : e = .verify ref ∨ e ∈ evs ∨ e = .revParse ref ∨ e = .verify c := by
            cases hcc : g.catOk c <;> rw [hcc] at he <;> simp at he <;> tauto
          rcases he' with rfl | he' | rfl | rfl
          · rfl
          · exact hevs e he'
          · rfl
          · rfl
  · have h40' : (ref.length == 40) = false := by simp [h40]
    cases u with
    | none =>
      simp only [h40', Bool.false_eq_true, if_false]
      exact hevs
    | some _ =>
      rcases hrp : g.revParse ref with _ | c <;>
      · simp only [h40', Bool.false_eq_true, if_false, hrp]
        intro e he
        rcases List.mem_append.mp he with he | he
        · exact hevs e he
        rcases List.mem_singleton.mp he with rfl
        rfl

/-- Every event `get_commit` records is a resolver event (never an
`enter`, `cloneMetadata`, `cloneCheckout` or `link`). -/
theorem get_commit_events_resolver (g : GitOracle) (ref : String) (fetch : Bool) :
    ∀ e ∈ (get_commit g ref fetch).2, e.isResolverEvent = true := by
  have htry := get_commit_try_events_resolver g ref fetch
  unfold get_commit
  rcases hf : get_commit_try g ref fetch with ⟨o, evs⟩
  rw [hf] at htry
  simp only at htry
  cases o with
  | some c =>
    simpa using htry
  | none =>
    cases hfo : g.fetchOk ref <;>
    · simp only [hfo, Bool.false_eq_true, if_false, if_true]
      intro e he
      rcases List.mem_append.mp he with he | he
      · exact htry e he
      rcases List.mem_singleton.mp he with rfl
      rfl

/-- A resolver event is not an `enter` event. -/
theorem resolver_event_not_enter (e : GEvent) (h : e.isResolverEvent = true) :
    e.isEnter = false := by
  cases e <;> simp [GEvent.isEnter] <;> simp [GEvent.isResolverEvent] at h

theorem checkout_clause_zero (w : World) : CheckoutClause w 0 := by
  intro st url ref fetch res evs h
  rw [show checkout w 0 st url ref fetch = (.error .fuel, []) from by simp [checkout]] at h
  obtain ⟨rfl, rfl⟩ := Prod.mk.inj h
  exact ⟨fun p st' hres => Except.noConfusion hres,
         fun e he => absurd he (List.not_mem_nil e)⟩

theorem subs_clause_of_checkout (w : World) (f : Nat) (hco : CheckoutClause w f) :
    SubsClause w f := by
  intro st key2 sms
  induction sms generalizing st with
  | nil =>
    intro res evs h
    simp only [checkout_subs] at h
    obtain ⟨rfl, rfl⟩ := Prod.mk.inj h
    constructor
    · intro st' hres k hk
      cases Except.ok.inj hres
      exact Or.inl hk
    · intro e he
      exact absurd he (List.not_mem_nil e)
  | cons sm rest ihs =>
    intro res evs h
    simp only [checkout_subs] at h
    rcases hc : checkout w f st sm.url sm.hash false with ⟨cres, cevs⟩
    rw [hc] at h
    have hcall := hco st sm.url sm.hash false cres cevs hc
    rcases cres with e1 | ⟨p, st1⟩
    · simp only at h
      obtain ⟨rfl, rfl⟩ := Prod.mk.inj h
      constructor
      · intro st' hres
        exact Except.noConfusion hres
      · intro e he hent
        rcases hcall.2 e he hent with rfl | ⟨u, r, rfl⟩
        · exact ⟨sm.url, sm.hash, rfl⟩
        · exact ⟨u, r, rfl⟩
    · simp only at h
      rcases hrest : checkout_subs w f st1 key2 rest with ⟨rres, revs⟩
      rw [hrest] at h
      obtain ⟨rfl, rfl⟩ := Prod.mk.inj h
      have hih := ihs st1 rres revs hrest
      constructor
      · intro st' hres k hk
        rcases hih.1 st' hres k hk with hk1 | hnew
        · rcases hcall.1 p st1 rfl k hk1 with hk0 | hnew
          · exact Or.inl hk0
          · exact Or.inr hnew
        · exact Or.inr hnew
      · intro e he hent
        rcases List.mem_append.mp he with he | he
        · rcases List.mem_append.mp he with he | he
          · rcases hcall.2 e he hent with rfl | ⟨u, r, rfl⟩
            · exact ⟨sm.url, sm.hash, rfl⟩
            · exact ⟨u, r, rfl⟩
          · rcases List.mem_singleton.mp he with rfl
            simp [GEvent.isEnter] at hent
        · exact hih.2 e he hent

theorem body_clause_of_subs (w : World) (f : Nat) (hsubs : SubsClause w f) :
    BodyClause w f := by
  intro st url ref fetch res evs h
  simp only [checkout_body] at h
  by_cases hfast : hash_str (url ++ "@" ++ ref) ∈ st.checkouts
  · rw [if_pos hfast] at h
    obtain ⟨rfl, rfl⟩ := Prod.mk.inj h
    constructor
    · intro p st' hres k hk
      obtain ⟨-, rfl⟩ := Prod.mk.inj (Except.ok.inj hres)
      exact Or.inl hk
    · intro e he
      exact absurd he (List.not_mem_nil e)
  · rw [if_neg hfast] at h
    set evm := (if url ∈ st.metadata then ([] : List GEvent)
      else [GEvent.cloneMetadata url]) with hevm
    set stm := (if url ∈ st.metadata then st
      else { st with metadata := st.metadata ++ [url] }) with hstm
    have hstmc : stm.checkouts = st.checkouts := by
      rw [hstm]
      by_cases hmet : url ∈ st.metadata
      · rw [if_pos hmet]
      · rw [if_neg hmet]
    have hevme : ∀ e ∈ evm, e.isEnter = false := by
      rw [hevm]
      by_cases hmet : url ∈ st.metadata
      · rw [if_pos hmet]
        intro e he
        exact absurd he (List.not_mem_nil e)
      · rw [if_neg hmet]
        intro e he
        rcases List.mem_singleton.mp he with rfl
        rfl
    rcases hgc : get_commit (w.git url) ref fetch with ⟨gc, gevs⟩
    rw [hgc] at h
    have hgevs : ∀ e ∈ gevs, e.isEnter = false := by
      intro e he
      exact resolver_event_not_enter e
        (get_commit_events_resolver (w.git url) ref fetch e (by rw [hgc]; exact he))
    rcases gc with e1 | commit
    · simp only at h
      obtain ⟨rfl, rfl⟩ := Prod.mk.inj h
      constructor
      · intro p st' hres
        exact Except.noConfusion hres
      · intro e he hent
        rcases List.mem_append.mp he with he | he
        · rw [hevme e he] at hent
          exact Bool.noConfusion hent
        · rw [hgevs e he] at hent
          exact Bool.noConfusion hent
    · simp only at h
      by_cases hk2 : hash_str (url ++ "@" ++ commit) ∈ stm.checkouts
      · rw [if_pos hk2] at h
        obtain ⟨rfl, rfl⟩ := Prod.mk.inj h
        constructor
        · intro p st' hres k hk
          obtain ⟨-, rfl⟩ := Prod.mk.inj (Except.ok.inj hres)
          rw [hstmc] at hk
          exact Or.inl hk
        · intro e he hent
          rcases List.mem_append.mp he with he | he
          · rw [hevme e he] at hent
            exact Bool.noConfusion hent
          · rw [hgevs e he] at hent
            exact Bool.noConfusion hent
      · rw [if_neg hk2] at h
        have hnewkey : NewKeyOf w (hash_str (url ++ "@" ++ commit)) :=
          ⟨url, commit, rfl, ref, fetch, by rw [hgc]⟩
        have hkeys2 : ∀ k ∈ ({ stm with checkouts := stm.checkouts ++
            [hash_str (url ++ "@" ++ commit)] } : St).checkouts,
            k ∈ st.checkouts ∨ NewKeyOf w k := by
          intro k hk
          rcases List.mem_append.mp hk with hk | hk
          · rw [hstmc] at hk
            exact Or.inl hk
          · rcases List.mem_singleton.mp hk with rfl
            exact Or.inr hnewkey
        have hev3 : ∀ e ∈ evm ++ gevs ++ [GEvent.cloneCheckout url commit],
            e.isEnter = false := by
          intro e he
          rcases List.mem_append.mp he with he | he
          · rcases List.mem_append.mp he with he | he
            · exact hevme e he
            · exact hgevs e he
          · rcases List.mem_singleton.mp he with rfl
            rfl
        rcases hgm : w.gitmodules url commit with _ | triples
        · rw [hgm] at h
          simp only at h
          obtain ⟨rfl, rfl⟩ := Prod.mk.inj h
          constructor
          · intro p st' hres k hk
            obtain ⟨-, rfl⟩ := Prod.mk.inj (Except.ok.inj hres)
            exact hkeys2 k hk
          · intro e he hent
            rw [hev3 e he] at hent
            exact Bool.noConfusion hent
        · rw [hgm] at h
          simp only at h
          rcases hgs : get_submodules_core triples (w.treeOut url commit) (w.origin url)
            with e1 | sms
          · rw [hgs] at h
            simp only at h
            obtain ⟨rfl, rfl⟩ := Prod.mk.inj h
            constructor
            · intro p st' hres
              exact Except.noConfusion hres
            · intro e he hent
              rw [hev3 e he] at hent
              exact Bool.noConfusion hent
          · rw [hgs] at h
            simp only at h
            rcases hsc : checkout_subs w f { stm with checkouts := stm.checkouts ++
                [hash_str (url ++ "@" ++ commit)] } (hash_str (url ++ "@" ++ commit)) sms
              with ⟨sres, sevs⟩
            rw [hsc] at h
            have hscall := hsubs _ _ _ sres sevs hsc
            rcases sres with e1 | st3
            · simp only at h
              obtain ⟨rfl, rfl⟩ := Prod.mk.inj h
              constructor
              · intro p st' hres
                exact Except.noConfusion hres
              · intro e he hent
                rcases List.mem_append.mp he with he | he
                · rw [hev3 e he] at hent
                  exact Bool.noConfusion hent
                · exact hscall.2 e he hent
            · simp only at h
              obtain ⟨rfl, rfl⟩ := Prod.mk.inj h
              constructor
              · intro p st' hres k hk
                obtain ⟨-, rfl⟩ := Prod.mk.inj (Except.ok.inj hres)
                rcases hscall.1 st3 rfl k hk with hk1 | hnew
                · exact hkeys2 k hk1
                · exact Or.inr hnew
              · intro e he hent
                rcases List.mem_append.mp he with he | he
                · rw [hev3 e he] at hent
                  exact Bool.noConfusion hent
                · exact hscall.2 e he hent

theorem checkout_clause_succ (w : World) (f : Nat) (hbody : BodyClause w f) :
    CheckoutClause w (f + 1) := by
  intro st url ref fetch res evs h
  rw [show checkout w (f + 1) st url ref fetch =
      ((checkout_body w f st url ref fetch).1,
       .enter url ref fetch :: (checkout_body w f st url ref fetch).2) from by
    unfold checkout
    rfl] at h
  rcases hb : checkout_body w f st url ref fetch with ⟨bres, bevs⟩
  rw [hb] at h
  simp only at h
  obtain ⟨rfl, rfl⟩ := Prod.mk.inj h
  have hcall := hbody st url ref fetch bres bevs hb
  constructor
  · exact hcall.1
  · intro e he hent
    rcases List.mem_cons.mp he with rfl | he
    · exact Or.inl rfl
    · rcases hcall.2 e he hent with ⟨u, r, rfl⟩
      exact Or.inr ⟨u, r, rfl⟩

/-- The combined invariant at every fuel bound. -/
theorem checkout_invariant (w : World) :
    ∀ fuel, CheckoutClause w fuel ∧ SubsClause w fuel ∧ BodyClause w fuel := by
  intro fuel
  induction fuel with
  | zero =>
    have hco := checkout_clause_zero w
    have hsubs := subs_clause_of_checkout w 0 hco
    exact ⟨hco, hsubs, body_clause_of_subs w 0 hsubs⟩
  | succ f ih =>
    have hco := checkout_clause_succ w f ih.2.2
    have hsubs := subs_clause_of_checkout w (f + 1) hco
    exact ⟨hco, hsubs, body_clause_of_subs w (f + 1) hsubs⟩

/-- C1 counterexample: when a ref (here the remote-only tag `v1.0`) is
unknown locally and resolution goes through the direct-fetch fallback,
the checkout entry `checkout(url, ref, fetch)` creates is keyed by
`digest(url + "@" + ref)` with the ref string itself — a tag name of
length 4, not a fully resolved 40-character commit id (the only string
`c` with `digest("u" + "@" + "v1.0") = digest("u" + "@" + c)` is `v1.0`
itself). -/
theorem checkout_c1_counterexample :
    (checkout wFallback 1 stEmpty "u" "v1.0" false).1 =
      .ok (checkout_dir_path (hash_str ("u" ++ "@" ++ "v1.0")),
           { metadata := ["u"], checkouts := [hash_str ("u" ++ "@" ++ "v1.0")] })
    ∧ (∀ c : String,
        hash_str ("u" ++ "@" ++ "v1.0") = hash_str ("u" ++ "@" ++ c) → c = "v1.0")
    ∧ ("v1.0" : String).length = 4
    ∧ gOracleFallback.revParse "v1.0" = none
    ∧ gOracleFallback.fetchOk "v1.0" = true := by
  refine ⟨?_, ?_, rfl, rfl, rfl⟩
  · simp [checkout, checkout_body, get_commit, get_commit_try,
      fetch_if_update_and_branch, stEmpty, wFallback, gOracleFallback, hash_str,
      checkout_dir_path, show ("v1.0" : String).length = 4 from rfl]
  · intro c hc
    have hdata := congrArg String.data hc
    simp only [hash_str, String.data_append] at hdata
    have hd2 := List.append_cancel_left hdata
    cases c with
    | mk data =>
      simp only at hd2
      rw [← hd2]

/-- C1 (amended): every checkout entry a successful
`checkout(url, ref, fetch)` call creates is keyed by
`digest(u + "@" + c)` where `c` is an identifier returned by `get_commit`
on `u`'s metadata repository: when local resolution succeeds this is a
resolved (for 40-character refs, verified) commit id, but when resolution
goes through the direct-fetch fallback it is the ref string itself, which
may be a branch or tag name. -/
theorem checkout_created_keys (w : World) (fuel : Nat) (st : St) (url ref : String)
    (fetch : Bool) (p : String) (st' : St) (evs : List GEvent)
    (h : checkout w fuel st url ref fetch = (.ok (p, st'), evs)) :
    ∀ k ∈ st'.checkouts, k ∈ st.checkouts ∨ NewKeyOf w k :=
  ((checkout_invariant w fuel).1 st url ref fetch (.ok (p, st')) evs h).1 p st' rfl

/-- Witness for C1 (amended) at the fallback input. -/
theorem checkout_created_keys_witness :
    checkout wFallback 1 stEmpty "u" "v1.0" false =
      (.ok (checkout_dir_path (hash_str ("u" ++ "@" ++ "v1.0")),
            { metadata := ["u"], checkouts := [hash_str ("u" ++ "@" ++ "v1.0")] }),
       [GEvent.enter "u" "v1.0" false, GEvent.cloneMetadata "u",
        GEvent.revParse "v1.0", GEvent.fallbackFetch "v1.0",
        GEvent.cloneCheckout "u" "v1.0"])
    ∧ ∀ k ∈ ({ metadata := ["u"],
               checkouts := [hash_str ("u" ++ "@" ++ "v1.0")] } : St).checkouts,
        k ∈ stEmpty.checkouts ∨ NewKeyOf wFallback k := by
  have h : checkout wFallback 1 stEmpty "u" "v1.0" false =
      (.ok (checkout_dir_path (hash_str ("u" ++ "@" ++ "v1.0")),
            { metadata := ["u"], checkouts := [hash_str ("u" ++ "@" ++ "v1.0")] }),
       [GEvent.enter "u" "v1.0" false, GEvent.cloneMetadata "u",
        GEvent.revParse "v1.0", GEvent.fallbackFetch "v1.0",
        GEvent.cloneCheckout "u" "v1.0"]) := by
    simp [checkout, checkout_body, get_commit, get_commit_try,
      fetch_if_update_and_branch, stEmpty, wFallback, gOracleFallback, hash_str,
      checkout_dir_path, show ("v1.0" : String).length = 4 from rfl]
  exact ⟨h, checkout_created_keys wFallback 1 stEmpty "u" "v1.0" false _ _ _ h⟩

theorem dlookup_cons (e : String × String) (rest : List (String × String)) (p : String) :
    dlookup (e :: rest) p = if e.1 == p then some e.2 else dlookup rest p := by
  unfold dlookup
  cases he : e.1 == p <;> simp [List.find?_cons, he]

theorem dlookup_dinsert (m : List (String × String)) (k v p : String) :
    dlookup (dinsert m k v) p = if k == p then some v else dlookup m p := by
  induction m with
  | nil =>
    unfold dinsert
    rw [dlookup_cons]
  | cons e rest ih =>
    unfold dinsert
    by_cases hek : e.1 = k
    · rw [if_pos (by simp [hek]), dlookup_cons, dlookup_cons]
      by_cases hkp : k = p
      · simp [beq_iff_eq, hkp]
      · have hep : ¬ e.1 = p := fun h => hkp (hek.symm.trans h)
        simp [beq_iff_eq, hkp, hep]
    · rw [if_neg (by simp [hek]), dlookup_cons, dlookup_cons, ih]
      by_cases hep : e.1 = p
      · have hkp : ¬ k = p := fun h => hek (hep.trans h.symm)
        simp [beq_iff_eq, hep, hkp]
      · simp [beq_iff_eq, hep]

theorem dlookup_append (l1 l2 : List (String × String)) (p : String) :
    dlookup (l1 ++ l2) p =
      match dlookup l1 p with
      | some v => some v
      | none => dlookup l2 p := by
  induction l1 with
  | nil => simp [dlookup]
  | cons e rest ih =>
    rw [List.cons_append, dlookup_cons, dlookup_cons]
    cases he : e.1 == p <;> simp [he, ih]

theorem path_to_sha_step_ok (m m' : List (String × String)) (line : String)
    (h : path_to_sha_step m line = .ok m') :
    m' = match parse_commit_line line with
      | some ps => dinsert m ps.1 ps.2
      | none => m := by
  unfold path_to_sha_step at h
  unfold parse_commit_line
  rcases hsp : pySplit line with _ | ⟨f0, rest1⟩
  · rw [hsp] at h
    exact Except.noConfusion h
  · rcases rest1 with _ | ⟨kind, restp⟩
    · rw [hsp] at h
      exact Except.noConfusion h
    · rw [hsp] at h
      simp only at h
      by_cases hk : kind = "commit"
      · rcases restp with _ | ⟨sha, rest3⟩
        · rw [if_pos hk] at h
          exact Except.noConfusion h
        · rcases rest3 with _ | ⟨path, rest4⟩
          · rw [if_pos hk] at h
            exact Except.noConfusion h
          · rw [if_pos hk] at h
            simp [hk]
            exact (Except.ok.inj h).symm
      · rw [if_neg hk] at h
        have hm := (Except.ok.inj h).symm
        rcases restp with _ | ⟨sha, rest3⟩
        · simpa using hm
        · rcases rest3 with _ | ⟨path, rest4⟩
          · simpa using hm
          · simp [hk]
            exact hm

/-- Lookups in the dictionary built by the tree-listing loop agree with
the declarative record list: the last `"commit"` line for a path wins,
and paths never written fall back to the initial dictionary. -/
theorem path_to_sha_loop_lookup (lines : List String) :
    ∀ m0 m, path_to_sha_loop lines m0 = .ok m →
    ∀ p, dlookup m p =
      match dlookup (lines.filterMap parse_commit_line).reverse p with
      | some v => some v
      | none => dlookup m0 p := by
  induction lines with
  | nil =>
    intro m0 m h p
    simp only [path_to_sha_loop] at h
    cases Except.ok.inj h
    simp [dlookup]
  | cons line rest ih =>
    intro m0 m h p
    simp only [path_to_sha_loop] at h
    cases hstep : path_to_sha_step m0 line with
    | error e =>
      rw [hstep] at h
      exact Except.noConfusion h
    | ok m1 =>
      rw [hstep] at h
      have hm1 := path_to_sha_step_ok m0 m1 line hstep
      have hrec := ih m1 m h p
      rw [List.filterMap_cons]
      cases hpl : parse_commit_line line with
      | none =>
        rw [hpl] at hm1
        simp only at hm1
        rw [hrec, hm1]
      | some ps =>
        rw [hpl] at hm1
        simp only at hm1
        rw [hrec, hm1]
        rw [List.reverse_cons, dlookup_append]
        cases hfound : dlookup (rest.filterMap parse_commit_line).reverse p
        · simp only
          rw [dlookup_dinsert]
          rw [dlookup_cons]
          cases hpsp : ps.1 == p <;> simp [hpsp, dlookup]
        · simp only

/-- Each submodule the descriptor loop emits carries the SHA stored in
the dictionary for its path. -/
theorem submodule_loop_hash (m : List (String × String)) (originUrl : String) :
    ∀ triples acc sms, submodule_loop m originUrl triples acc = .ok sms →
    ∀ sm ∈ sms, sm ∈ acc ∨ dlookup m sm.path = some sm.hash := by
  intro triples
  induction triples with
  | nil =>
    intro acc sms h sm hsm
    simp only [submodule_loop] at h
    cases Except.ok.inj h
    exact Or.inl hsm
  | cons t rest ih =>
    intro acc sms h sm hsm
    simp only [submodule_loop] at h
    cases hstep : submodule_of_triple m originUrl t with
    | error e =>
      rw [hstep] at h
      exact Except.noConfusion h
    | ok sm1 =>
      rw [hstep] at h
      rcases ih (acc ++ [sm1]) sms h sm hsm with hin | hlook
      · rcases List.mem_append.mp hin with hin | hin
        · exact Or.inl hin
        · rcases List.mem_singleton.mp hin with rfl
          right
          unfold submodule_of_triple at hstep
          cases hd : dlookup m t.2.1 with
          | none =>
            rw [hd] at hstep
            exact Except.noConfusion hstep
          | some sha =>
            rw [hd] at hstep
            have := Except.ok.inj hstep
            rw [← this]
            exact hd
      · exact Or.inr hlook

/-- Lookups in the finished `path_to_sha` dictionary agree with the
declarative tree reading. -/
theorem build_path_to_sha_lookup (treeOut : String) (m : List (String × String))
    (h : build_path_to_sha treeOut = .ok m) (p : String) :
    dlookup m p = tree_commit_sha treeOut p := by
  unfold build_path_to_sha at h
  have hl := path_to_sha_loop_lookup (pysplitlines (pyStrip treeOut)) [] m h p
  unfold tree_commit_sha tree_commit_records
  rw [hl]
  cases hd : dlookup ((pysplitlines (pyStrip treeOut)).filterMap parse_commit_line).reverse p
  · simp [dlookup]
  · simp

/-- C6: every submodule descriptor `get_submodules` returns carries as
its pinned commit (`hash` field) exactly the SHA the parent commit's
recursive tree listing records for that path under object-kind
`"commit"`; and every recursive submodule invocation of `checkout` is
made with `fetch = false` — in the event stream of any `checkout` call,
every `enter` event other than the call itself carries `fetch = false`,
whatever the top-level flag was. -/
theorem submodule_pinned_and_recursion_spec :
    (∀ (triples : List (String × String × String)) (treeOut originUrl : String) sms,
      get_submodules_core triples treeOut originUrl = .ok sms →
      ∀ sm ∈ sms, tree_commit_sha treeOut sm.path = some sm.hash)
    ∧ (∀ (w : World) (fuel : Nat) (st : St) (url ref : String) (fetch : Bool) res evs,
      checkout w fuel st url ref fetch = (res, evs) →
      ∀ e ∈ evs, e.isEnter = true →
        e = GEvent.enter url ref fetch ∨ ∃ u r, e = GEvent.enter u r false) := by
  constructor
  · intro triples treeOut originUrl sms h sm hsm
    unfold get_submodules_core at h
    rcases hb : build_path_to_sha treeOut with e1 | m
    · rw [hb] at h
      exact Except.noConfusion h
    · rw [hb] at h
      simp only at h
      rcases submodule_loop_hash m originUrl triples [] sms h sm hsm with hin | hlook
      · exact absurd hin (List.not_mem_nil sm)
      · rw [← build_path_to_sha_lookup treeOut m hb sm.path]
        exact hlook
  · intro w fuel st url ref fetch res evs h e he hent
    exact ((checkout_invariant w fuel).1 st url ref fetch res evs h).2 e he hent

/-- C5: the relative submodule URL `../lib.git` under a parent origin
given as `ssh://git@host/org/repo.git` — or as the SSH shorthand
`git@host:org/repo.git`, which is first normalized to
`ssh://git@host/org/repo.git` — resolves to `ssh://git@host/org/lib.git`
through `get_submodules`' leading-segment stripping (`url = url[1:]`)
followed by `resolve_relative_submodule_url`. -/
theorem submodule_relative_url_spec :
    ssh_shorthand_normalize "git@host:org/repo.git" = "ssh://git@host/org/repo.git"
    ∧ get_submodules_core [("lib", "libs/lib", "../lib.git")]
        "160000 commit 1111111111111111111111111111111111111111\tlibs/lib"
        "ssh://git@host/org/repo.git"
      = .ok [⟨"lib", "libs/lib", "ssh://git@host/org/lib.git",
              "1111111111111111111111111111111111111111"⟩]
    ∧ get_submodules_core [("lib", "libs/lib", "../lib.git")]
        "160000 commit 1111111111111111111111111111111111111111\tlibs/lib"
        "git@host:org/repo.git"
      = .ok [⟨"lib", "libs/lib", "ssh://git@host/org/lib.git",
              "1111111111111111111111111111111111111111"⟩] :=
  ⟨rfl, rfl, rfl⟩

/-- C2: if the checkout-cache directory keyed by `digest(url + "@" + ref)`
already exists, `checkout(url, ref, fetch)` returns its path immediately,
for every url, every ref string and either fetch flag: the cache state is
returned completely unchanged (in particular no metadata entry is
accessed or created) and the only recorded event is the embedding's call
marker — no ref resolution, no network fetch, no clone of any kind. -/
theorem checkout_fast_path (w : World) (fuel : Nat) (st : St) (url ref : String)
    (fetch : Bool) (h : hash_str (url ++ "@" ++ ref) ∈ st.checkouts) :
    checkout w (fuel + 1) st url ref fetch =
      (.ok (checkout_dir_path (hash_str (url ++ "@" ++ ref)), st),
       [GEvent.enter url ref fetch]) := by
  unfold checkout checkout_body
  simp [h]

/-- Witness for C2 at a concrete input. -/
theorem checkout_fast_path_witness :
    hash_str ("u" ++ "@" ++ "abc") ∈ stFast.checkouts
    ∧ checkout wTrivial 1 stFast "u" "abc" true =
        (.ok (checkout_dir_path (hash_str ("u" ++ "@" ++ "abc")), stFast),
         [GEvent.enter "u" "abc" true]) :=
  ⟨by decide, checkout_fast_path wTrivial 0 stFast "u" "abc" true (by decide)⟩

/-- C3: a 40-character ref that verifies as a commit object resolves to
itself — `get_commit` returns it unchanged under either fetch flag,
records only the one local `cat-file` verification and in particular no
fetch — and the whole `checkout` computation is identical for
`fetch=false` and `fetch=true`, so both resolve to the same checkout
path. -/
theorem checkout_verified_commit_ignores_fetch (w : World) (fuel : Nat) (st : St)
    (url ref : String) (h40 : ref.length = 40)
    (hcat : (w.git url).catOk ref = true) :
    (get_commit (w.git url) ref true).1 = .ok ref
    ∧ (get_commit (w.git url) ref false).1 = .ok ref
    ∧ (∀ e ∈ (get_commit (w.git url) ref true).2, e.isFetch = false)
    ∧ (∀ e ∈ (get_commit (w.git url) ref false).2, e.isFetch = false)
    ∧ (checkout w fuel st url ref false).1 = (checkout w fuel st url ref true).1 := by
  have h1 := get_commit_of_len40_verified (w.git url) ref true h40 hcat
  have h2 := get_commit_of_len40_verified (w.git url) ref false h40 hcat
  have hbody : ∀ n,
      checkout_body w n st url ref false = checkout_body w n st url ref true := by
    intro n
    unfold checkout_body
    rw [h1, h2]
  refine ⟨by rw [h1], by rw [h2], ?_, ?_, ?_⟩
  · rw [h1]
    intro e he
    rcases List.mem_singleton.mp he with rfl
    rfl
  · rw [h2]
    intro e he
    rcases List.mem_singleton.mp he with rfl
    rfl
  · cases fuel with
    | zero => simp [checkout]
    | succ n =>
      unfold checkout
      simp only
      rw [hbody n]

/-- Witness for C3 at a concrete input. -/
theorem checkout_verified_commit_ignores_fetch_witness :
    ref40.length = 40
    ∧ (wCat40.git "u").catOk ref40 = true
    ∧ ((get_commit (wCat40.git "u") ref40 true).1 = .ok ref40
      ∧ (get_commit (wCat40.git "u") ref40 false).1 = .ok ref40
      ∧ (∀ e ∈ (get_commit (wCat40.git "u") ref40 true).2, e.isFetch = false)
      ∧ (∀ e ∈ (get_commit (wCat40.git "u") ref40 false).2, e.isFetch = false)
      ∧ (checkout wCat40 1 stEmpty "u" ref40 false).1
          = (checkout wCat40 1 stEmpty "u" ref40 true).1) :=
  ⟨by decide, by decide,
   checkout_verified_commit_ignores_fetch wCat40 1 stEmpty "u" ref40 (by decide) (by decide)⟩

theorem flookup_cons (e : FPath × FNode) (rest : FS) (q : FPath) :
    FS.lookup (e :: rest) q = if e.1 == q then some e.2 else FS.lookup rest q := by
  unfold FS.lookup
  cases he : e.1 == q <;> simp [List.find?_cons, he]

theorem flookup_append (l1 l2 : FS) (q : FPath) :
    FS.lookup (l1 ++ l2) q =
      match FS.lookup l1 q with
      | some n => some n
      | none => FS.lookup l2 q := by
  induction l1 with
  | nil => simp [FS.lookup]
  | cons e rest ih =>
    rw [List.cons_append, flookup_cons, flookup_cons]
    cases he : e.1 == q <;> simp [he, ih]

theorem flookup_insert (fs : FS) (p : FPath) (n : FNode) (q : FPath) :
    FS.lookup (FS.insert fs p n) q = if p = q then some n else FS.lookup fs q := by
  induction fs with
  | nil =>
    unfold FS.insert
    rw [flookup_cons]
    by_cases hpq : p = q <;> simp [hpq, FS.lookup]
  | cons e rest ih =>
    unfold FS.insert
    by_cases hep : e.1 = p
    · rw [if_pos (by simp [hep]), flookup_cons, flookup_cons]
      by_cases hpq : p = q
      · simp [hpq]
      · have heq : ¬ e.1 = q := fun h => hpq (hep.symm.trans h)
        simp [hpq, heq]
    · rw [if_neg (by simp [hep]), flookup_cons, flookup_cons, ih]
      by_cases heq : e.1 = q
      · have hpq : ¬ p = q := fun h => hep (heq.trans h.symm)
        simp [heq, hpq]
      · simp [heq]

theorem insert_absent (fs : FS) (p : FPath) (n : FNode) (h : fs.lookup p = none) :
    FS.insert fs p n = fs ++ [(p, n)] := by
  induction fs with
  | nil => rfl
  | cons e rest ih =>
    rw [flookup_cons] at h
    unfold FS.insert
    cases he : e.1 == p
    · rw [he] at h
      simp only [Bool.false_eq_true, if_false] at h ⊢
      rw [ih h, List.cons_append]
    · rw [he] at h
      simp at h

theorem flookup_erase (fs : FS) (p q : FPath) :
    FS.lookup (FS.erase fs p) q = if q = p then none else fs.lookup q := by
  induction fs with
  | nil =>
    by_cases hqp : q = p <;> simp [FS.erase, FS.lookup, hqp]
  | cons e rest ih =>
    unfold FS.erase at ih ⊢
    rw [List.filter_cons]
    by_cases hep : e.1 = p
    · have hepb : (e.1 == p) = true := by simp [hep]
      simp only [hepb, Bool.not_true, Bool.false_eq_true, if_false]
      rw [ih, flookup_cons]
      by_cases hqp : q = p
      · simp [hqp]
      · have heq : ¬ e.1 = q := fun h => hqp (h.symm.trans hep)
        simp [hqp, heq]
    · have hepb : (e.1 == p) = false := by simp [hep]
      simp only [hepb, Bool.not_false, if_true]
      rw [flookup_cons, flookup_cons, ih]
      by_cases heq : e.1 = q
      · have hqp : ¬ q = p := fun h => hep (heq.trans h)
        simp [heq, hqp]
      · simp [heq]

theorem flookup_eraseTree (fs : FS) (p q : FPath) :
    FS.lookup (FS.eraseTree fs p) q =
      if p.isPrefixOf q then none else fs.lookup q := by
  induction fs with
  | nil =>
    by_cases hpq : p.isPrefixOf q <;> simp [FS.eraseTree, FS.lookup, hpq]
  | cons e rest ih =>
    unfold FS.eraseTree at ih ⊢
    rw [List.filter_cons]
    by_cases hpe : p.isPrefixOf e.1
    · simp only [hpe, Bool.not_true, Bool.false_eq_true, if_false]
      rw [ih, flookup_cons]
      by_cases hpq : p.isPrefixOf q
      · simp [hpq]
      · have heq : ¬ e.1 = q := by
          intro h
          rw [h] at hpe
          exact hpq hpe
        simp [hpq, heq]
    · have hpeb : List.isPrefixOf p e.1 = false := by
        cases hx : List.isPrefixOf p e.1
        · rfl
        · exact absurd hx hpe
      simp only [hpeb, Bool.not_false, if_true]
      rw [flookup_cons, flookup_cons, ih]
      by_cases heq : e.1 = q
      · have hpq : ¬ p.isPrefixOf q := by
          rw [← heq]
          exact hpe
        simp [heq, hpq]
      · simp [heq]

theorem resolve_self (fs : FS) (p : FPath)
    (h : ∀ t', fs.lookup p ≠ some (.symlink t')) : fs.resolve p = some p := by
  show resolveFuel fs (fs.length + 1) p = some p
  unfold resolveFuel
  cases hl : fs.lookup p with
  | none => rfl
  | some node =>
    cases node with
    | file => rfl
    | dir => rfl
    | symlink t' => exact absurd hl (h t')

theorem resolveFuel_mono (fs : FS) :
    ∀ n m p r, resolveFuel fs n p = some r → n ≤ m → resolveFuel fs m p = some r := by
  intro n
  induction n with
  | zero =>
    intro m p r h
    exact absurd h (by simp [resolveFuel])
  | succ n ih =>
    intro m p r h hnm
    obtain ⟨m', rfl⟩ := Nat.exists_eq_add_of_le hnm
    unfold resolveFuel at h
    cases hl : fs.lookup p with
    | none =>
      rw [hl] at h
      rw [show n + 1 + m' = (n + m') + 1 from by omega]
      unfold resolveFuel
      rw [hl]
      exact h
    | some node =>
      cases node with
      | file =>
        rw [hl] at h
        rw [show n + 1 + m' = (n + m') + 1 from by omega]
        unfold resolveFuel
        rw [hl]
        exact h
      | dir =>
        rw [hl] at h
        rw [show n + 1 + m' = (n + m') + 1 from by omega]
        unfold resolveFuel
        rw [hl]
        exact h
      | symlink t =>
        rw [hl] at h
        rw [show n + 1 + m' = (n + m') + 1 from by omega]
        unfold resolveFuel
        rw [hl]
        exact ih (n + m') t r h (by omega)

theorem resolveFuel_terminal (fs : FS) :
    ∀ n p r, resolveFuel fs n p = some r → ∀ t', fs.lookup r ≠ some (.symlink t') := by
  intro n
  induction n with
  | zero =>
    intro p r h
    exact absurd h (by simp [resolveFuel])
  | succ n ih =>
    intro p r h
    unfold resolveFuel at h
    cases hl : fs.lookup p with
    | none =>
      rw [hl] at h
      cases Option.some.inj h
      intro t' ht'
      rw [hl] at ht'
      exact Option.noConfusion ht'
    | some node =>
      cases node with
      | file =>
        rw [hl] at h
        cases Option.some.inj h
        intro t' ht'
        rw [hl] at ht'
        exact (FNode.noConfusion (Option.some.inj ht'))
      | dir =>
        rw [hl] at h
        cases Option.some.inj h
        intro t' ht'
        rw [hl] at ht'
        exact (FNode.noConfusion (Option.some.inj ht'))
      | symlink t =>
        rw [hl] at h
        exact ih t r h

theorem resolveFuel_extend (fs : FS) (p : FPath) (x : FNode) (h0 : fs.lookup p = none) :
    ∀ n t r, resolveFuel fs n t = some r → r ≠ p →
      resolveFuel (fs ++ [(p, x)]) n t = some r := by
  intro n
  induction n with
  | zero =>
    intro t r h
    exact absurd h (by simp [resolveFuel])
  | succ n ih =>
    intro t r h hrp
    unfold resolveFuel at h ⊢
    cases hl : fs.lookup t with
    | none =>
      rw [hl] at h
      simp only at h
      obtain rfl : r = t := (Option.some.inj h).symm
      have hpt : (p == r) = false := beq_eq_false_iff_ne.mpr (fun hh => hrp hh.symm)
      have hlook : FS.lookup (fs ++ [(p, x)]) r = none := by
        rw [flookup_append, hl]
        simp only
        rw [flookup_cons, hpt]
        simp [FS.lookup]
      rw [hlook]
    | some node =>
      have hlook : FS.lookup (fs ++ [(p, x)]) t = some node := by
        rw [flookup_append, hl]
      cases node with
      | file =>
        rw [hl] at h
        rw [hlook]
        simp only at h ⊢
        exact h
      | dir =>
        rw [hl] at h
        rw [hlook]
        simp only at h ⊢
        exact h
      | symlink t2 =>
        rw [hl] at h
        rw [hlook]
        simp only at h ⊢
        exact ih t2 r h hrp

theorem resolveFuel_selfloop (fs : FS) (p : FPath)
    (h : fs.lookup p = some (.symlink p)) : ∀ n, resolveFuel fs n p = none := by
  intro n
  induction n with
  | zero => rfl
  | succ n ih =>
    unfold resolveFuel
    rw [h]
    exact ih

theorem mkdirStep_pair (fs : FS) (cr : List FPath) (q : FPath) :
    mkdirStep (fs, cr) q =
      match fs.lookup q with
      | none => (FS.insert fs q .dir, cr ++ [q])
      | some _ => (fs, cr) := rfl

theorem makedirs_fold_lookup (qs : List FPath) :
    ∀ (fs : FS) (cr : List FPath) (q : FPath),
      (FS.lookup (qs.foldl mkdirStep (fs, cr)).1 q = fs.lookup q)
      ∨ (fs.lookup q = none ∧ q ∈ qs ∧
          FS.lookup (qs.foldl mkdirStep (fs, cr)).1 q = some .dir) := by
  induction qs with
  | nil =>
    intro fs cr q
    exact Or.inl rfl
  | cons q0 qs ih =>
    intro fs cr q
    rw [List.foldl_cons, mkdirStep_pair]
    cases h0 : fs.lookup q0 with
    | some n =>
      simp only
      rcases ih fs cr q with hl | ⟨ha, hb, hc⟩
      · exact Or.inl hl
      · exact Or.inr ⟨ha, List.mem_cons_of_mem q0 hb, hc⟩
    | none =>
      simp only
      by_cases hq : q = q0
      · subst hq
        rcases ih (FS.insert fs q .dir) (cr ++ [q]) q with hl | ⟨ha, hb, hc⟩
        · rw [flookup_insert, if_pos rfl] at hl
          exact Or.inr ⟨h0, List.mem_cons_self q qs, hl⟩
        · rw [flookup_insert, if_pos rfl] at ha
          exact Option.noConfusion ha
      · rcases ih (FS.insert fs q0 .dir) (cr ++ [q0]) q with hl | ⟨ha, hb, hc⟩
        · rw [flookup_insert, if_neg (fun h => hq h.symm)] at hl
          exact Or.inl hl
        · rw [flookup_insert, if_neg (fun h => hq h.symm)] at ha
          exact Or.inr ⟨ha, List.mem_cons_of_mem q0 hb, hc⟩

theorem makedirs_fold_preserve (qs : List FPath) (fs : FS) (cr : List FPath)
    (q : FPath) (n : FNode) (h : fs.lookup q = some n) :
    FS.lookup (qs.foldl mkdirStep (fs, cr)).1 q = some n := by
  rcases makedirs_fold_lookup qs fs cr q with hl | ⟨ha, _, _⟩
  · rw [hl, h]
  · rw [h] at ha
    exact Option.noConfusion ha

theorem makedirs_fold_saturates (qs : List FPath) :
    ∀ (fs : FS) (cr : List FPath) (q : FPath), q ∈ qs →
      (FS.lookup (qs.foldl mkdirStep (fs, cr)).1 q).isSome := by
  induction qs with
  | nil =>
    intro fs cr q hq
    exact absurd hq (List.not_mem_nil q)
  | cons q0 qs ih =>
    intro fs cr q hq
    rw [List.foldl_cons, mkdirStep_pair]
    rcases List.mem_cons.mp hq with rfl | hq
    · cases h0 : fs.lookup q with
      | some n =>
        simp only
        rw [makedirs_fold_preserve qs fs cr q n h0]
        rfl
      | none =>
        simp only
        rw [makedirs_fold_preserve qs (FS.insert fs q .dir) (cr ++ [q]) q .dir
          (by rw [flookup_insert, if_pos rfl])]
        rfl
    · cases h0 : fs.lookup q0 with
      | some n =>
        simp only
        exact ih fs cr q hq
      | none =>
        simp only
        exact ih (FS.insert fs q0 .dir) (cr ++ [q0]) q hq

theorem makedirs_fold_of_saturated (qs : List FPath) :
    ∀ (fs : FS) (cr : List FPath), (∀ q ∈ qs, (fs.lookup q).isSome) →
      qs.foldl mkdirStep (fs, cr) = (fs, cr) := by
  induction qs with
  | nil =>
    intro fs cr _
    rfl
  | cons q0 qs ih =>
    intro fs cr hsat
    rw [List.foldl_cons, mkdirStep_pair]
    cases h0 : fs.lookup q0 with
    | none =>
      have := hsat q0 (List.mem_cons_self q0 qs)
      rw [h0] at this
      exact absurd this (by simp)
    | some n =>
      simp only
      exact ih fs cr (fun q hq => hsat q (List.mem_cons_of_mem q0 hq))

/-- Running `makedirs` twice changes nothing the second time. -/
theorem makedirs_idem (fs : FS) (d : FPath) :
    FS.makedirs (FS.makedirs fs d).1 d = ((FS.makedirs fs d).1, []) := by
  unfold FS.makedirs
  exact makedirs_fold_of_saturated (prefixesOf d) _ []
    (fun q hq => makedirs_fold_saturates (prefixesOf d) fs [] q hq)

theorem mem_prefixesOf_length (d q : FPath) (h : q ∈ prefixesOf d) :
    q.length ≤ d.length := by
  unfold prefixesOf at h
  rcases List.mem_map.mp h with ⟨i, hi, rfl⟩
  simp only [List.length_take]
  exact min_le_right _ _

/-- `makedirs` toward `p`'s parent never creates `p` itself. -/
theorem lookup_makedirs_dropLast_self (fs : FS) (p : FPath)
    (h0 : fs.lookup p = none) :
    FS.lookup (FS.makedirs fs p.dropLast).1 p = none := by
  unfold FS.makedirs
  rcases makedirs_fold_lookup (prefixesOf p.dropLast) fs [] p with hl | ⟨_, hmem, _⟩
  · rw [hl, h0]
  · exfalso
    have hlen := mem_prefixesOf_length p.dropLast p hmem
    rw [List.length_dropLast] at hlen
    have hne : p ≠ [] := by
      intro he
      rw [he] at hmem
      exact absurd hmem (by simp [prefixesOf])
    have : 0 < p.length := List.length_pos.mpr hne
    omega

theorem makedirs_preserve (fs : FS) (d q : FPath) (n : FNode)
    (h : fs.lookup q = some n) :
    FS.lookup (FS.makedirs fs d).1 q = some n := by
  unfold FS.makedirs
  exact makedirs_fold_preserve (prefixesOf d) fs [] q n h

theorem makedirs_lookup (fs : FS) (d q : FPath) :
    (FS.lookup (FS.makedirs fs d).1 q = fs.lookup q)
    ∨ (fs.lookup q = none ∧ FS.lookup (FS.makedirs fs d).1 q = some .dir) := by
  unfold FS.makedirs
  rcases makedirs_fold_lookup (prefixesOf d) fs [] q with hl | ⟨ha, _, hc⟩
  · exact Or.inl hl
  · exact Or.inr ⟨ha, hc⟩

theorem erase_of_lookup_none (fs : FS) (p : FPath) (h : fs.lookup p = none) :
    FS.erase fs p = fs := by
  induction fs with
  | nil => rfl
  | cons e rest ih =>
    rw [flookup_cons] at h
    unfold FS.erase at ih ⊢
    rw [List.filter_cons]
    cases he : e.1 == p
    · rw [he] at h
      simp only [Bool.false_eq_true, if_false] at h
      simp only [Bool.not_false, if_true]
      rw [ih h]
    · rw [he] at h
      simp at h

theorem erase_append_self (md1 : FS) (p : FPath) (x : FNode)
    (h : md1.lookup p = none) :
    FS.erase (md1 ++ [(p, x)]) p = md1 := by
  unfold FS.erase
  rw [List.filter_append]
  have h1 : md1.filter (fun e => !(e.1 == p)) = md1 := erase_of_lookup_none md1 p h
  rw [h1]
  simp

/-- A path that neither `exists()` nor `is_symlink()` has no entry. -/
theorem lookup_none_of_not_exists (fs : FS) (p : FPath)
    (hpex : fs.pexists p = false) (hsym : fs.is_symlink p = false) :
    fs.lookup p = none := by
  cases hl : fs.lookup p with
  | none => rfl
  | some node =>
    exfalso
    cases node with
    | symlink t2 =>
      unfold FS.is_symlink at hsym
      rw [hl] at hsym
      exact Bool.noConfusion hsym
    | file =>
      have hnl : ∀ t2, fs.lookup p ≠ some (.symlink t2) := by
        intro t2 hc
        rw [hl] at hc
        exact FNode.noConfusion (Option.some.inj hc)
      have hresp := resolve_self fs p hnl
      have hpt : fs.pexists p = true := by
        unfold FS.pexists
        rw [hresp]
        show (fs.lookup p).isSome = true
        rw [hl]
        rfl
      rw [hpex] at hpt
      exact Bool.noConfusion hpt
    | dir =>
      have hnl : ∀ t2, fs.lookup p ≠ some (.symlink t2) := by
        intro t2 hc
        rw [hl] at hc
        exact FNode.noConfusion (Option.some.inj hc)
      have hresp := resolve_self fs p hnl
      have hpt : fs.pexists p = true := by
        unfold FS.pexists
        rw [hresp]
        show (fs.lookup p).isSome = true
        rw [hl]
        rfl
      rw [hpex] at hpt
      exact Bool.noConfusion hpt

/-- The second-call analysis behind idempotence: once a `create_symlink`
call has gone through `link_finish` from a state with no entry at the
destination, running `create_symlink` again on the result leaves the
filesystem unchanged. -/
theorem link_finish_then_again (fs : FS) (p t : FPath) (effs : List LinkEffect)
    (force : Bool) (h0 : fs.lookup p = none) :
    (create_symlink (link_finish fs p t effs).fs p t force).fs
      = (link_finish fs p t effs).fs := by
  have hmdp : FS.lookup (FS.makedirs fs p.dropLast).1 p = none :=
    lookup_makedirs_dropLast_self fs p h0
  have hmi0 := makedirs_idem fs p.dropLast
  cases hres : FS.resolve (FS.makedirs fs p.dropLast).1 t with
  | none =>
    -- `target.resolve()` loops: the first call stops at the makedirs
    -- result and the second call repeats the identical failure.
    have hval : link_finish fs p t effs =
        { fs := (FS.makedirs fs p.dropLast).1
          effects := effs ++ (FS.makedirs fs p.dropLast).2.map .mkdirE
          err := some .loopResolve } := by
      simp only [link_finish]
      rw [hres]
    rw [hval]
    set md1 := (FS.makedirs fs p.dropLast).1 with hmd1
    show (create_symlink md1 p t force).fs = md1
    have hsym1 : FS.is_symlink md1 p = false := by
      unfold FS.is_symlink
      rw [hmdp]
    have hnl1 : ∀ t2, FS.lookup md1 p ≠ some (.symlink t2) := by
      intro t2 hc
      rw [hmdp] at hc
      exact Option.noConfusion hc
    have hresp : FS.resolve md1 p = some p := resolve_self md1 p hnl1
    have hpex1 : FS.pexists md1 p = false := by
      unfold FS.pexists
      rw [hresp]
      show (FS.lookup md1 p).isSome = false
      rw [hmdp]
      rfl
    have hcall2 : create_symlink md1 p t force = link_finish md1 p t [] := by
      simp [create_symlink, hpex1, hsym1]
    rw [hcall2]
    simp only [link_finish]
    have hr2 : FS.resolve (FS.makedirs md1 p.dropLast).1 t = none := by
      rw [hmi0]
      exact hres
    rw [hr2]
    show (FS.makedirs md1 p.dropLast).1 = md1
    rw [hmi0]
  | some rt =>
    have hval : link_finish fs p t effs =
        { fs := FS.insert (FS.makedirs fs p.dropLast).1 p (.symlink rt)
          effects := effs ++ (FS.makedirs fs p.dropLast).2.map .mkdirE
            ++ [.symlinkE p rt]
          err := none } := by
      simp only [link_finish]
      rw [hres]
    rw [hval]
    set md1 := (FS.makedirs fs p.dropLast).1 with hmd1
    show (create_symlink (FS.insert md1 p (.symlink rt)) p t force).fs
      = FS.insert md1 p (.symlink rt)
    set fs1 := FS.insert md1 p (.symlink rt) with hfs1
    have hins : fs1 = md1 ++ [(p, .symlink rt)] := by
      rw [hfs1]
      exact insert_absent md1 p _ hmdp
    have hlookp : FS.lookup fs1 p = some (.symlink rt) := by
      rw [hfs1, flookup_insert, if_pos rfl]
    have hsym1 : FS.is_symlink fs1 p = true := by
      unfold FS.is_symlink
      rw [hlookp]
    have hlen : fs1.length = md1.length + 1 := by
      rw [hins]
      simp
    by_cases hrtp : rt = p
    · -- the symlink points at itself: both `resolve`s loop, the
      -- same-file check fails, and the link is unlinked and recreated.
      subst hrtp
      have hloop : ∀ n, resolveFuel fs1 n rt = none :=
        resolveFuel_selfloop fs1 rt hlookp
      have hrespnone : FS.resolve fs1 rt = none := hloop _
      have hpex1 : FS.pexists fs1 rt = false := by
        unfold FS.pexists
        rw [hrespnone]
      have hsame1 : (FS.samefile fs1 rt t).getD false = false := by
        unfold FS.samefile
        rw [hrespnone]
        cases hx : FS.resolve fs1 t with
        | none => rfl
        | some b => rfl
      have hcall2 : create_symlink fs1 rt t force
          = link_finish (FS.erase fs1 rt) rt t [.unlinkE rt] := by
        simp [create_symlink, hpex1, hsym1, hsame1]
      rw [hcall2]
      have herase : FS.erase fs1 rt = md1 := by
        rw [hins]
        exact erase_append_self md1 rt _ hmdp
      rw [herase]
      simp only [link_finish]
      have hr2 : FS.resolve (FS.makedirs md1 rt.dropLast).1 t = some rt := by
        rw [hmi0]
        exact hres
      rw [hr2]
      show FS.insert (FS.makedirs md1 rt.dropLast).1 rt (.symlink rt) = fs1
      rw [hmi0]
    · have hlookrt : FS.lookup fs1 rt = FS.lookup md1 rt := by
        rw [hfs1, flookup_insert, if_neg (fun h => hrtp h.symm)]
      have hresfuel : resolveFuel md1 (md1.length + 1) t = some rt := hres
      have hterm : ∀ t2, FS.lookup md1 rt ≠ some (.symlink t2) :=
        resolveFuel_terminal md1 (md1.length + 1) t rt hresfuel
      have hresp : FS.resolve fs1 p = some rt := by
        show resolveFuel fs1 (fs1.length + 1) p = some rt
        unfold resolveFuel
        rw [hlookp]
        rw [hlen]
        unfold resolveFuel
        rw [hlookrt]
        cases hv : FS.lookup md1 rt with
        | none => rfl
        | some node =>
          cases node with
          | file => rfl
          | dir => rfl
          | symlink t2 => exact absurd hv (hterm t2)
      have hrest1 : FS.resolve fs1 t = some rt := by
        show resolveFuel fs1 (fs1.length + 1) t = some rt
        rw [hins]
        refine resolveFuel_mono _ (md1.length + 1) _ t rt ?_ ?_
        · exact resolveFuel_extend md1 p _ hmdp (md1.length + 1) t rt hresfuel hrtp
        · simp only [List.length_append, List.length_cons, List.length_nil]
          omega
      cases hv : FS.lookup md1 rt with
      | some node =>
        -- the resolved target exists: the same-file check sees the link
        -- already pointing at the target and the call is a no-op.
        have hsame1 : (FS.samefile fs1 p t).getD false = true := by
          unfold FS.samefile
          rw [hresp, hrest1]
          show (Option.getD (if (FS.lookup fs1 rt).isSome && (FS.lookup fs1 rt).isSome
            then some (rt == rt) else none) false) = true
          rw [hlookrt, hv]
          simp
        have hpex1 : FS.pexists fs1 p = true := by
          unfold FS.pexists
          rw [hresp]
          show (FS.lookup fs1 rt).isSome = true
          rw [hlookrt, hv]
          rfl
        simp [create_symlink, hpex1, hsame1]
      | none =>
        -- dangling link: the same-file check fails, the link is
        -- unlinked and recreated identically.
        have hsame1 : (FS.samefile fs1 p t).getD false = false := by
          unfold FS.samefile
          rw [hresp, hrest1]
          show (Option.getD (if (FS.lookup fs1 rt).isSome && (FS.lookup fs1 rt).isSome
            then some (rt == rt) else none) false) = false
          rw [hlookrt, hv]
          rfl
        have hpex1 : FS.pexists fs1 p = false := by
          unfold FS.pexists
          rw [hresp]
          show (FS.lookup fs1 rt).isSome = false
          rw [hlookrt, hv]
          rfl
        have hcall2 : create_symlink fs1 p t force
            = link_finish (FS.erase fs1 p) p t [.unlinkE p] := by
          simp [create_symlink, hpex1, hsym1, hsame1]
        rw [hcall2]
        have herase : FS.erase fs1 p = md1 := by
          rw [hins]
          exact erase_append_self md1 p _ hmdp
        rw [herase]
        simp only [link_finish]
        have hr2 : FS.resolve (FS.makedirs md1 p.dropLast).1 t = some rt := by
          rw [hmi0]
          exact hres
        rw [hr2]
        show FS.insert (FS.makedirs md1 p.dropLast).1 p (.symlink rt) = fs1
        rw [hmi0]

/-- After clearing the destination, the finishing step of
`create_symlink` always succeeds when the target is not itself a
symlink: parents are created, then the path becomes a symlink whose
stored target is `target.resolve()` (= `target`). -/
theorem link_finish_spec (base : FS) (path target : FPath) (effs : List LinkEffect)
    (ht : ∀ t', base.lookup target ≠ some (.symlink t')) :
    (link_finish base path target effs).err = none
    ∧ FS.lookup (link_finish base path target effs).fs path = some (.symlink target)
    ∧ (link_finish base path target effs).effects =
        effs ++ (FS.makedirs base path.dropLast).2.map .mkdirE
          ++ [.symlinkE path target] := by
  have hmt : ∀ t', FS.lookup (FS.makedirs base path.dropLast).1 target
      ≠ some (.symlink t') := by
    intro t' hcontra
    rcases makedirs_lookup base path.dropLast target with hl | ⟨_, hc⟩
    · rw [hl] at hcontra
      exact ht t' hcontra
    · rw [hc] at hcontra
      exact FNode.noConfusion (Option.some.inj hcontra)
  have hres : FS.resolve (FS.makedirs base path.dropLast).1 target = some target :=
    resolve_self _ target hmt
  have hval : link_finish base path target effs =
      { fs := FS.insert (FS.makedirs base path.dropLast).1 path (.symlink target)
        effects := effs ++ (FS.makedirs base path.dropLast).2.map .mkdirE
          ++ [.symlinkE path target]
        err := none } := by
    simp only [link_finish]
    rw [hres]
  rw [hval]
  exact ⟨rfl, by rw [flookup_insert, if_pos rfl], rfl⟩

/-- C7: calling `create_symlink(path, target, force=False)` when `path`
is occupied by a regular file or directory (not a symlink) that is not
the same underlying file as `target` raises the fatal conflict
`RuntimeError` and leaves the filesystem — including the occupant —
completely untouched; with `force=True` the occupant is removed (a file
by `unlink`, a directory by recursive `rmtree`) and the symlink is
created. -/
theorem create_symlink_conflict_spec (fs : FS) (path target : FPath) (n : FNode)
    (hocc : fs.lookup path = some n) (hn : n = .file ∨ n = .dir)
    (ht : fs.lookup target = some .file ∨ fs.lookup target = some .dir
        ∨ fs.lookup target = none)
    (htp : target ≠ path) (hpref : ¬ path.isPrefixOf target) :
    create_symlink fs path target false = ⟨fs, [], some .conflict⟩
    ∧ (create_symlink fs path target true).err = none
    ∧ FS.lookup (create_symlink fs path target true).fs path = some (.symlink target)
    ∧ (n = .file →
        (create_symlink fs path target true).effects.head? = some (.unlinkE path))
    ∧ (n = .dir →
        (create_symlink fs path target true).effects.head? = some (.rmtreeE path)) := by
  have hnl : ∀ t', fs.lookup path ≠ some (.symlink t') := by
    intro t' h
    rcases hn with rfl | rfl <;>
    · rw [hocc] at h
      exact FNode.noConfusion (Option.some.inj h)
  have htl : ∀ t', fs.lookup target ≠ some (.symlink t') := by
    intro t' h
    rcases ht with h2 | h2 | h2 <;>
    · rw [h2] at h
      first
        | exact FNode.noConfusion (Option.some.inj h)
        | exact Option.noConfusion h
  have hres_p : fs.resolve path = some path := resolve_self fs path hnl
  have hpex : fs.pexists path = true := by
    unfold FS.pexists
    rw [hres_p]
    show (fs.lookup path).isSome = true
    rw [hocc]
    rfl
  have hsym : fs.is_symlink path = false := by
    unfold FS.is_symlink
    rw [hocc]
    rcases hn with rfl | rfl <;> rfl
  have hres_t : fs.resolve target = some target := resolve_self fs target htl
  have hbeq : (path == target) = false := beq_eq_false_iff_ne.mpr (fun h => htp h.symm)
  have hsame : (fs.samefile path target).getD false = false := by
    unfold FS.samefile
    rw [hres_p, hres_t]
    show (Option.getD (if (fs.lookup path).isSome && (fs.lookup target).isSome
      then some (path == target) else none) false) = false
    rw [hocc]
    rcases ht with h2 | h2 | h2 <;> rw [h2] <;> simp [hbeq]
  have hcond : (fs.pexists path || fs.is_symlink path) = true := by
    rw [hpex]
    rfl
  have hfile : fs.is_file path = (n == .file) := by
    unfold FS.is_file
    rw [hres_p]
    show (fs.lookup path == some .file) = (n == .file)
    rw [hocc]
    rcases hn with rfl | rfl <;> rfl
  refine ⟨?_, ?_⟩
  · simp [create_symlink, hpex, hsame, hsym]
  · rcases hn with rfl | rfl
    · -- occupant is a regular file: force path goes through unlink
      have hcall : create_symlink fs path target true =
          link_finish (fs.erase path) path target [.unlinkE path] := by
        simp [create_symlink, hpex, hsame, hsym, hfile]
      have hbase : ∀ t', FS.lookup (fs.erase path) target ≠ some (.symlink t') := by
        intro t' h
        rw [flookup_erase, if_neg htp] at h
        exact htl t' h
      obtain ⟨he, hl, heff⟩ := link_finish_spec (fs.erase path) path target
        [.unlinkE path] hbase
      rw [hcall]
      refine ⟨he, hl, fun _ => ?_, fun hcontra => FNode.noConfusion hcontra⟩
      rw [heff]
      rfl
    · -- occupant is a directory: force path goes through rmtree
      have hcall : create_symlink fs path target true =
          link_finish (fs.eraseTree path) path target [.rmtreeE path] := by
        simp [create_symlink, hpex, hsame, hsym, hfile]
      have hbase : ∀ t', FS.lookup (fs.eraseTree path) target ≠ some (.symlink t') := by
        intro t' h
        rw [flookup_eraseTree, if_neg hpref] at h
        exact htl t' h
      obtain ⟨he, hl, heff⟩ := link_finish_spec (fs.eraseTree path) path target
        [.rmtreeE path] hbase
      rw [hcall]
      refine ⟨he, hl, fun hcontra => FNode.noConfusion hcontra, fun _ => ?_⟩
      rw [heff]
      rfl

/-- Witness for C7 at a concrete input: `/a/occupied` is a regular file,
the target `/a/t` another file. -/
theorem create_symlink_conflict_spec_witness :
    ([(["a"], FNode.dir), (["a", "occupied"], FNode.file),
      (["a", "t"], FNode.file)] : FS).lookup ["a", "occupied"] = some .file
    ∧ ((.file : FNode) = .file ∨ (.file : FNode) = .dir)
    ∧ (([(["a"], FNode.dir), (["a", "occupied"], FNode.file),
        (["a", "t"], FNode.file)] : FS).lookup ["a", "t"] = some .file
      ∨ ([(["a"], FNode.dir), (["a", "occupied"], FNode.file),
          (["a", "t"], FNode.file)] : FS).lookup ["a", "t"] = some .dir
      ∨ ([(["a"], FNode.dir), (["a", "occupied"], FNode.file),
          (["a", "t"], FNode.file)] : FS).lookup ["a", "t"] = none)
    ∧ (["a", "t"] : FPath) ≠ ["a", "occupied"]
    ∧ ¬ (["a", "occupied"] : FPath).isPrefixOf ["a", "t"]
    ∧ (create_symlink [(["a"], FNode.dir), (["a", "occupied"], FNode.file),
        (["a", "t"], FNode.file)] ["a", "occupied"] ["a", "t"] false
      = ⟨[(["a"], FNode.dir), (["a", "occupied"], FNode.file),
          (["a", "t"], FNode.file)], [], some .conflict⟩) :=
  ⟨by decide, by decide, by decide, by decide, by decide,
   (create_symlink_conflict_spec
      [(["a"], FNode.dir), (["a", "occupied"], FNode.file), (["a", "t"], FNode.file)]
      ["a", "occupied"] ["a", "t"] .file (by decide) (by decide) (by decide)
      (by decide) (by decide)).1⟩

/-- C9 (code bug): on a checkout containing one submodule, `make_view`
does produce a destination tree with no symlink at the submodule's
top-level path — `out/sub` is a real directory whose contents are
replicated recursively, with regular files becoming symlinks to the
individual source files — but a symlink pointing outside the checkout
cache is not preserved as-is: `replicate` passes the plain string
returned by `os.readlink` to `create_symlink`, whose
`target.resolve()` then raises `AttributeError` and aborts the whole
view, as the run on `fsView` (the same checkout plus the outside link
`ext -> /opt/tool`) shows. -/
theorem make_view_submodule_explosion_bug :
    ((make_view cr9 20 fsViewOk p9 ["out"]).toOption.map
        (fun v => FS.lookup v ["out", "sub"])) = some (some .dir)
    ∧ ((make_view cr9 20 fsViewOk p9 ["out"]).toOption.map
        (fun v => v.is_symlink ["out", "sub"])) = some false
    ∧ ((make_view cr9 20 fsViewOk p9 ["out"]).toOption.map
        (fun v => FS.lookup v ["out", "sub", "a.txt"]))
      = some (some (.symlink (s9 ++ ["a.txt"])))
    ∧ ((make_view cr9 20 fsViewOk p9 ["out"]).toOption.map
        (fun v => FS.lookup v ["out", "sub", "lib"])) = some (some .dir)
    ∧ ((make_view cr9 20 fsViewOk p9 ["out"]).toOption.map
        (fun v => FS.lookup v ["out", "sub", "lib", "b.txt"]))
      = some (some (.symlink (s9 ++ ["lib", "b.txt"])))
    ∧ ((make_view cr9 20 fsViewOk p9 ["out"]).toOption.map
        (fun v => FS.lookup v ["out", "README"]))
      = some (some (.symlink (p9 ++ ["README"])))
    ∧ make_view cr9 20 fsView p9 ["out"] = .error .strAttrError := by
  exact ⟨rfl, rfl, rfl, rfl, rfl, rfl, rfl⟩

/-- C8 counterexample: the second of two identical `create_symlink`
calls is not free of side effects beyond the same-file check. With an
empty filesystem and a dangling target `d/m`, the first call creates
the symlink `d/l -> d/m`; on the second call `samefile` raises (the
target does not exist), so the `except: pass` leaves the check false
and the call unlinks the existing link and recreates it — two mutating
effects — even though the final filesystem state is unchanged. -/
theorem create_symlink_c8_counterexample :
    (create_symlink (create_symlink [] ["d", "l"] ["d", "m"] false).fs
        ["d", "l"] ["d", "m"] false).effects
      = [.unlinkE ["d", "l"], .symlinkE ["d", "l"] ["d", "m"]]
    ∧ (create_symlink (create_symlink [] ["d", "l"] ["d", "m"] false).fs
        ["d", "l"] ["d", "m"] false).fs
      = (create_symlink [] ["d", "l"] ["d", "m"] false).fs := by
  constructor
  · rfl
  · rfl

/-- C8 (amended): `create_symlink` is idempotent in its effect on the
filesystem — for every state, path, target and `force` flag, running
the call a second time on the result leaves the filesystem exactly as
after the first call — and whenever `path` already resolves to the
same underlying file as `target`, the call returns immediately without
modifying anything (no effects, no error). (The original claim's
"no side effect beyond the same-file check" for the second call is
refuted separately: a dangling target makes the second call unlink and
recreate the link.) -/
theorem create_symlink_idempotent_spec :
    (∀ (fs : FS) (p t : FPath) (force : Bool),
      (create_symlink (create_symlink fs p t force).fs p t force).fs
        = (create_symlink fs p t force).fs)
    ∧ (∀ (fs : FS) (p t : FPath) (force : Bool),
        (fs.samefile p t).getD false = true →
          create_symlink fs p t force = { fs := fs, effects := [], err := none }) := by
  constructor
  · intro fs p t force
    by_cases hcond : (fs.pexists p || fs.is_symlink p) = true
    · by_cases hsame : (fs.samefile p t).getD false = true
      · have h1 : create_symlink fs p t force
            = { fs := fs, effects := [], err := none } := by
          simp [create_symlink, hcond, hsame]
        have hfix : (create_symlink fs p t force).fs = fs := by rw [h1]
        rw [hfix]
        exact hfix
      · have hsameb : (fs.samefile p t).getD false = false :=
          Bool.eq_false_iff.mpr hsame
        by_cases hsym : fs.is_symlink p = true
        · have h1 : create_symlink fs p t force
              = link_finish (fs.erase p) p t [.unlinkE p] := by
            simp [create_symlink, hcond, hsameb, hsym]
          have hbase : (fs.erase p).lookup p = none := by
            rw [flookup_erase, if_pos rfl]
          rw [h1]
          exact link_finish_then_again (fs.erase p) p t [.unlinkE p] force hbase
        · have hsymb : fs.is_symlink p = false := Bool.eq_false_iff.mpr hsym
          have hpexb : fs.pexists p = true := by
            cases hx : fs.pexists p
            · rw [hx, hsymb] at hcond
              exact absurd hcond (by simp)
            · rfl
          cases force with
          | true =>
            by_cases hfile : fs.is_file p = true
            · have h1 : create_symlink fs p t true
                  = link_finish (fs.erase p) p t [.unlinkE p] := by
                simp [create_symlink, hpexb, hsameb, hsymb, hfile]
              have hbase : (fs.erase p).lookup p = none := by
                rw [flookup_erase, if_pos rfl]
              rw [h1]
              exact link_finish_then_again (fs.erase p) p t [.unlinkE p] true hbase
            · have hfileb : fs.is_file p = false := Bool.eq_false_iff.mpr hfile
              have h1 : create_symlink fs p t true
                  = link_finish (fs.eraseTree p) p t [.rmtreeE p] := by
                simp [create_symlink, hpexb, hsameb, hsymb, hfileb]
              have hbase : (fs.eraseTree p).lookup p = none := by
                rw [flookup_eraseTree,
                  if_pos (by simp [List.isPrefixOf_iff_prefix])]
              rw [h1]
              exact link_finish_then_again (fs.eraseTree p) p t [.rmtreeE p] true hbase
          | false =>
            have h1 : create_symlink fs p t false
                = { fs := fs, effects := [], err := some .conflict } := by
              simp [create_symlink, hpexb, hsameb, hsymb]
            have hfix : (create_symlink fs p t false).fs = fs := by rw [h1]
            rw [hfix]
            exact hfix
    · have hcondb : (fs.pexists p || fs.is_symlink p) = false :=
        Bool.eq_false_iff.mpr hcond
      have hpexb : fs.pexists p = false := by
        cases hx : fs.pexists p
        · rfl
        · rw [hx] at hcondb
          exact absurd hcondb (by simp)
      have hsymb : fs.is_symlink p = false := by
        cases hx : fs.is_symlink p
        · rfl
        · rw [hx] at hcondb
          exact absurd hcondb (by simp)
      have h0 : fs.lookup p = none := lookup_none_of_not_exists fs p hpexb hsymb
      have h1 : create_symlink fs p t force = link_finish fs p t [] := by
        simp [create_symlink, hpexb, hsymb]
      rw [h1]
      exact link_finish_then_again fs p t [] force h0
  · intro fs p t force hsame
    have hsf : fs.samefile p t = some true := by
      cases hx : fs.samefile p t with
      | none =>
        rw [hx] at hsame
        exact Bool.noConfusion hsame
      | some b =>
        cases b
        · rw [hx] at hsame
          exact Bool.noConfusion hsame
        · rfl
    have hpex : fs.pexists p = true := by
      unfold FS.samefile at hsf
      unfold FS.pexists
      cases hrp : fs.resolve p with
      | none =>
        rw [hrp] at hsf
        exact Option.noConfusion hsf
      | some a =>
        rw [hrp] at hsf
        cases hrt : fs.resolve t with
        | none =>
          rw [hrt] at hsf
          exact Option.noConfusion hsf
        | some b =>
          rw [hrt] at hsf
          have hsf2 : (if (fs.lookup a).isSome && (fs.lookup b).isSome
              then some (a == b) else (none : Option Bool)) = some true := hsf
          show (fs.lookup a).isSome = true
          by_cases hls : ((fs.lookup a).isSome && (fs.lookup b).isSome) = true
          · cases hla : (fs.lookup a).isSome
            · rw [hla] at hls
              exact absurd hls (by simp)
            · rfl
          · rw [if_neg hls] at hsf2
            exact Option.noConfusion hsf2
    simp [create_symlink, hpex, hsame]

/-- C10: `is_known_branch(metadata_repo, ref)` returns `True` iff some line
of the `git branch -a` output, stripped of surrounding whitespace, equals
`ref` after its first 15 characters (the length of `"remotes/origin/"`)
are dropped — the dropped prefix itself is never compared against
`"remotes/origin/"` — and a failing branch-listing subprocess makes the
function return `False` instead of raising. -/
theorem is_known_branch_spec (branchOut : Option String) (ref : String) :
    (is_known_branch branchOut ref = true ↔
      ∃ out line, branchOut = some out ∧ line ∈ pysplitlines (pyStrip out) ∧
        (pyStrip line).drop 15 = ref)
    ∧ is_known_branch none ref = false := by
  constructor
  · cases branchOut with
    | none => simp [is_known_branch]
    | some out =>
      simp only [is_known_branch, List.any_eq_true, beq_iff_eq,
        Option.some.injEq]
      constructor
      · rintro ⟨line, hmem, hline⟩
        exact ⟨out, line, rfl, hmem, by simpa using hline⟩
      · rintro ⟨o, line, ho, hmem, hline⟩
        cases ho
        exact ⟨line, hmem, by simpa using hline⟩
  · rfl

end GitCache
